import Mathlib

/-!
Verification development for the EnigmaBridge client library
(`lib/eb-core.js`).  The wire codec operates on sjcl `bitArray`s; all the
data handled by the ProcessData codec is byte aligned, so the codec layer
is embedded at the byte level (`List Nat`, each entry a byte value).  The
nonce-demangling routine manipulates the raw 32-bit-word representation of
sjcl bit arrays (including JavaScript coercion quirks), so it is embedded
separately over the stored-word representation (`List Int`).  The template
filler patches key material at arbitrary bit offsets, so the bit-container
operations it uses are embedded over `List Bool`.

AES itself, SHA and the CSPRNG are library externals (spec §1 "Out of
scope"); block ciphers are therefore abstract parameters
`E, D, M : List Nat → List Nat` acting on 16-byte blocks, and randomness is
an explicit parameter.
-/

/-- Errors raised by the library: `corrupt` mirrors `sjcl.exception.corrupt`
and `eb.exception.corrupt`, `invalid` mirrors the `invalid` exceptions.
The message strings are taken verbatim from the source. -/
inductive EbErr where
  | corrupt (msg : String)
  | invalid (msg : String)
  deriving Repr, DecidableEq

/-! ### Byte-level helpers -/

/-- Big-endian 4-byte serialisation of a 32-bit value (one sjcl word). -/
def be4 (n : Nat) : List Nat :=
  [n / 2 ^ 24 % 256, n / 2 ^ 16 % 256, n / 2 ^ 8 % 256, n % 256]

/-- Big-endian 2-byte serialisation of a 16-bit value. -/
def be2 (n : Nat) : List Nat := [n / 256 % 256, n % 256]

/-- Value of four bytes interpreted as a big-endian 32-bit word. -/
def word4 (b0 b1 b2 b3 : Nat) : Nat := ((b0 * 256 + b1) * 256 + b2) * 256 + b3

/-- Big-endian value of a byte string (used for the RSA big-integer input). -/
def bytesToNat (l : List Nat) : Nat := l.foldl (fun a b => a * 256 + b) 0

/-- Minimal-length big-endian byte string of a number; `0` becomes `[0]`.
This is `eb.misc.padHexToEven(res.toString(16))` re-read as bytes. -/
def natToBytesEven (n : Nat) : List Nat :=
  if _h : n < 256 then [n] else natToBytesEven (n / 256) ++ [n % 256]
decreasing_by exact Nat.div_lt_self (by omega) (by omega)

/-! ### Hex codec (sjcl.codec.hex and sprintf width specifiers) -/

/-- Lower-case hex digit for a value `< 16` (sjcl.codec.hex.fromBits). -/
def hexChar (n : Nat) : Char :=
  if n < 10 then Char.ofNat (48 + n) else Char.ofNat (87 + n)

/-- Upper-case hex digit (sprintf `%X`). -/
def hexCharU (n : Nat) : Char :=
  if n < 10 then Char.ofNat (48 + n) else Char.ofNat (55 + n)

/-- Two lower-case hex characters of a byte. -/
def hexOfByte (b : Nat) : List Char := [hexChar (b / 16 % 16), hexChar (b % 16)]

/-- Lower-case hex encoding of a byte string (sjcl.codec.hex.fromBits). -/
def hexOfBytes (l : List Nat) : List Char := l.flatMap hexOfByte

/-- Numeric value of a hex character; accepts both cases like `parseInt`. -/
def hexCharVal (c : Char) : Nat :=
  if 48 ≤ c.toNat ∧ c.toNat ≤ 57 then c.toNat - 48
  else if 97 ≤ c.toNat ∧ c.toNat ≤ 102 then c.toNat - 87
  else if 65 ≤ c.toNat ∧ c.toNat ≤ 70 then c.toNat - 55
  else 0

/-- Decode a byte-aligned (even length) hex string (sjcl.codec.hex.toBits).
A trailing odd nibble would yield a sub-byte bit array in sjcl; the codec
layer never produces one, so it is dropped here. -/
def hexToBytes : List Char → List Nat
  | a :: b :: rest => (16 * hexCharVal a + hexCharVal b) :: hexToBytes rest
  | _ => []

/-- Value of a hex string (`parseInt(s, 16)` on well-formed input). -/
def hexVal (s : List Char) : Nat := s.foldl (fun a c => 16 * a + hexCharVal c) 0

/-- Upper-case hex digits of `n`, no leading zeros (sprintf `%X`). -/
def natToHexU (n : Nat) : List Char :=
  if _h : n < 16 then [hexCharU n] else natToHexU (n / 16) ++ [hexCharU (n % 16)]
decreasing_by exact Nat.div_lt_self (by omega) (by omega)

/-- Lower-case hex digits of `n`, no leading zeros (sprintf `%x`). -/
def natToHexL (n : Nat) : List Char :=
  if _h : n < 16 then [hexChar n] else natToHexL (n / 16) ++ [hexChar (n % 16)]
decreasing_by exact Nat.div_lt_self (by omega) (by omega)

/-- sprintf `%04X`: upper-case hex, zero padded to at least four digits;
wider values are printed in full, not truncated. -/
def sprintf04X (n : Nat) : List Char :=
  List.replicate (4 - (natToHexU n).length) '0' ++ natToHexU n

/-- sprintf `%08x`: lower-case hex, zero padded to at least eight digits. -/
def sprintf08x (n : Nat) : List Char :=
  List.replicate (8 - (natToHexL n).length) '0' ++ natToHexL n

/-! ### PKCS#7 padding (eb.padding.pkcs7, block length 16) -/

/-- `eb.padding.pkcs7.pad` with the default block length 16: append
`k = 16 − (len mod 16)` bytes of value `k` (a full block when aligned). -/
def pkcs7Pad (a : List Nat) : List Nat :=
  let padLen := 16 - a.length % 16
  a ++ List.replicate padLen padLen

/-- `eb.padding.pkcs7.unpad` with the default block length 16. -/
def pkcs7Unpad (a : List Nat) : Except EbErr (List Nat) :=
  if a.length % 16 ≠ 0 ∨ a.length = 0 then
    .error (.corrupt "input must be a positive multiple of the block size")
  else
    let bi := (a.getLast?.getD 0) % 256
    if bi = 0 ∨ bi > 16 then .error (.corrupt "pkcs#5 padding corrupt")
    else if a.drop (a.length - bi) ≠ List.replicate bi bi then
      .error (.corrupt "pkcs#5 padding corrupt")
    else .ok (a.take (a.length - bi))

/-! ### CBC mode and CBC-MAC (sjcl.mode.cbc, sjcl.misc.hmac_cbc) -/

/-- Byte-wise XOR of two equal-length blocks (eb.misc.xor on 4 words). -/
def xorBytes (x y : List Nat) : List Nat := List.zipWith Nat.xor x y

/-- Split a byte string into 16-byte blocks (the CBC block loop). -/
def chunks16 (l : List Nat) : List (List Nat) :=
  if h : l = [] then [] else l.take 16 :: chunks16 (l.drop 16)
termination_by l.length
decreasing_by
  simp only [List.length_drop]
  have : l.length ≠ 0 := fun hl => h (List.eq_nil_of_length_eq_zero hl)
  omega

/-- CBC encryption chain `c_i = E(c_{i−1} ⊕ p_i)` over whole blocks. -/
def cbcEncChain (E : List Nat → List Nat) (c : List Nat) :
    List (List Nat) → List (List Nat)
  | [] => []
  | b :: bs =>
    let c2 := E (xorBytes c b)
    c2 :: cbcEncChain E c2 bs

/-- CBC decryption chain `p_i = c_{i−1} ⊕ D(c_i)`. -/
def cbcDecChain (D : List Nat → List Nat) (c : List Nat) :
    List (List Nat) → List (List Nat)
  | [] => []
  | b :: bs => xorBytes c (D b) :: cbcDecChain D b bs

/-- `sjcl.mode.cbc.encrypt` with `noPad = true`: requires the plaintext to
be a positive multiple of the block size (the source also rejects non-byte
inputs, which cannot arise at the byte level). -/
def cbcEncryptNoPad (E : List Nat → List Nat) (iv p : List Nat) :
    Except EbErr (List Nat) :=
  if iv.length ≠ 16 then .error (.invalid "cbc iv must be 128 bits")
  else if p.length % 16 ≠ 0 then
    .error (.invalid
      "when padding is disabled, plaintext has to be a positive multiple of a block size")
  else .ok (cbcEncChain E iv (chunks16 p)).flatten

/-- `sjcl.mode.cbc.decrypt` with `noPad = false`: decrypt, then the inline
strict PKCS#7 check and strip exactly as in the source. -/
def cbcDecryptPkcs7 (D : List Nat → List Nat) (iv ct : List Nat) :
    Except EbErr (List Nat) :=
  if iv.length ≠ 16 then .error (.invalid "cbc iv must be 128 bits")
  else if ct.length % 16 ≠ 0 ∨ ct.length = 0 then
    .error (.corrupt "cbc ciphertext must be a positive multiple of the block size")
  else
    let out := (cbcDecChain D iv (chunks16 ct)).flatten
    let bi := (out.getLast?.getD 0) % 256
    if bi = 0 ∨ bi > 16 then .error (.corrupt "pkcs#5 padding corrupt")
    else if out.drop (out.length - bi) ≠ List.replicate bi bi then
      .error (.corrupt "pkcs#5 padding corrupt")
    else .ok (out.take (out.length - bi))

/-- MAC block loop of `sjcl.misc.hmac_cbc.mac`. -/
def cbcMacChain (M : List Nat → List Nat) (c : List Nat) :
    List (List Nat) → List Nat
  | [] => c
  | b :: bs => cbcMacChain M (M (xorBytes c b)) bs

/-- `sjcl.misc.hmac_cbc` with the `empty` padding strategy: CBC-MAC with a
zero IV over the whole 16-byte blocks of the input (a trailing partial
block is ignored by the `bp + bsb <= bl` loop bound). -/
def cbcMac (M : List Nat → List Nat) (data : List Nat) : List Nat :=
  cbcMacChain M (List.replicate 16 0)
    (chunks16 (data.take (16 * (data.length / 16))))

/-! ### ProcessData request builder (eb.comm.processDataRequestBodyBuilder) -/

/-- `eb.comm.processDataRequestBodyBuilder.build`.  `E` is the AES-256
block cipher keyed with `aesKey`, `M` the one keyed with `macKey` (AES is
an external primitive, abstracted).  `nonce` is the freshness nonce as
bytes (the source keeps it as a hex string and converts with
`inputToBits`), `plainData`/`requestData` are the two bitArray arguments. -/
def processDataBuild (E M : List Nat → List Nat) (userObjectId : Nat)
    (nonce : List Nat) (reqType : List Char) (plainData requestData : List Nat) :
    Except EbErr (List Char) :=
  let plainDataLength := plainData.length
  let baBuff := 0x1f :: (be4 (userObjectId % 2 ^ 32) ++ nonce ++ requestData)
  let baBuff := pkcs7Pad baBuff
  match cbcEncryptNoPad E (List.replicate 16 0) baBuff with
  | .error e => .error e
  | .ok encryptedData =>
    let hmacData := cbcMac M encryptedData
    .ok ("Packet0_".data ++ reqType ++ "_".data ++ sprintf04X plainDataLength
      ++ hexOfBytes plainData ++ hexOfBytes encryptedData ++ hexOfBytes hmacData)

/-! ### Stored-word model of sjcl bit arrays

`eb.comm.demangleNonce` does raw JavaScript arithmetic on the stored words
of an sjcl `bitArray`, so it is embedded over that representation: a list
of stored doubles (`Int`; every value arising here is an exact integer).
A full word is stored as a signed 32-bit value; the final word of an array
whose bit length is not a multiple of 32 is stored as
`toInt32 value + len · 2^40` (`sjcl.bitArray.partial` with `_end`), value
in the high `len` bits.  Modelled from the spec: the spec's §4.A bit
container ("32-bit words with bit-length tracking") together with the
sjcl bundled library, which is outside `src/`. -/

/-- JavaScript `ToUint32` of an integral double. -/
def toUint32 (x : Int) : Int := x % 2 ^ 32

/-- JavaScript `ToInt32` of an integral double. -/
def toInt32 (x : Int) : Int :=
  if x % 2 ^ 32 < 2 ^ 31 then x % 2 ^ 32 else x % 2 ^ 32 - 2 ^ 32

/-- JavaScript shift count: `ToUint32(b) & 31`. -/
def jsShiftCount (b : Int) : Nat := (b % 32).toNat

/-- JavaScript `a << b`. -/
def jsShl (a b : Int) : Int := toInt32 (toInt32 a * 2 ^ jsShiftCount b)

/-- JavaScript `a >> b` (sign-propagating). -/
def jsShrS (a b : Int) : Int := (toInt32 a).fdiv (2 ^ jsShiftCount b)

/-- JavaScript `a >>> b` for non-NaN `a` (NaN inputs are handled at the
call site, where `ToUint32(NaN) = 0`). -/
def jsShrU (a b : Int) : Int := (toUint32 a).fdiv (2 ^ jsShiftCount b)

/-- JavaScript `a & b`. -/
def jsAnd (a b : Int) : Int :=
  toInt32 (Int.ofNat (Nat.land (toUint32 a).toNat (toUint32 b).toNat))

/-- `sjcl.bitArray.getPartial`: `Math.round(x / 0x10000000000) || 32`. -/
def partLen (w : Int) : Int :=
  let q := (w + 2 ^ 39).fdiv (2 ^ 40)
  if q = 0 then 32 else q

/-- `sjcl.bitArray.partial(len, x, 1)`: stored form of a final word holding
`len` bits. -/
def mkPart (len x : Int) : Int := toInt32 x + len * 2 ^ 40

/-- `sjcl.bitArray.bitLength`. -/
def bitLengthW (a : List Int) : Int :=
  match a.getLast? with
  | none => 0
  | some w => 32 * ((a.length : Int) - 1) + partLen w

/-- `sjcl.bitArray.clamp(a, len)`: truncate to `ceil(len/32)` words and mask
the last word to its top `len & 31` bits
(`partial(len & 31, last & (0x80000000 >> ((len & 31) − 1)), 1)`). -/
def clampW (a : List Int) (len : Int) : List Int :=
  if (a.length : Int) * 32 < len then a
  else
    let b := a.take ((len + 31).fdiv 32).toNat
    let len2 := jsAnd len 31
    match b.getLast? with
    | none => b
    | some last =>
      if len2 ≠ 0 then
        b.dropLast ++ [mkPart len2 (jsAnd last (jsShrS 0x80000000 (len2 - 1)))]
      else b

/-- `eb.comm.demangleNonce` (eb-core.js:1156).  The loop subtracts
`0x01010101` from each full word; the tail path computes `rbl`, the shifted
constant `sub`, and `c = (word − sub) >>> rbl`, then clamps.  When the loop
has consumed every word (`bl` a multiple of 32), `nonce.slice(i,i+1)[0]` is
`undefined`, `undefined − sub` is NaN and `NaN >>> rbl` is `0`. -/
def demangleNonceW (nonce : List Int) : Except EbErr (List Int) :=
  let bl := bitLengthW nonce
  if bl % 8 ≠ 0 then .error (.invalid "nonce has to be aligned to bytes")
  else
    let k := (bl.fdiv 32).toNat
    let outFull := (List.range k).map (fun i => ((nonce.get? i).getD 0) - 0x01010101)
    if 32 * (k : Int) + 32 = bl then .ok outFull
    else
      let rbl := bl - (32 * (k : Int) - 32)
      let sub := jsAnd 0x01010101 (jsShl (jsShl 1 rbl - 1) (32 - rbl))
      let c := match nonce.get? k with
               | none => 0
               | some v => jsShrU (v - sub) rbl
      .ok (clampW (outFull ++ [c]) bl)

/-- Modelled from the spec: the server-side nonce mangling that
`demangleNonce` is specified to invert — "the server returns
`reqNonce[i] ⊞ 0x01010101` per 32-bit word", and "for a tail of `r` bits
(`r<32`), shift the `0x01010101` constant so only the high `r` bits
participate".  Stated on the stored-word representation. -/
def mangleNonceW (nonce : List Int) : List Int :=
  let bl := bitLengthW nonce
  let k := (bl.fdiv 32).toNat
  let full := (List.range k).map (fun i => toInt32 (((nonce.get? i).getD 0) + 0x01010101))
  if 32 * (k : Int) = bl then full
  else
    let r := bl - 32 * (k : Int)
    let sub := jsAnd 0x01010101 (jsShl (jsShl 1 r - 1) (32 - r))
    let v := match nonce.get? k with
             | none => 0
             | some w => w - partLen w * 2 ^ 40
    full ++ [mkPart r (v + sub)]

/-- Stored-word array of a byte string, exactly as `sjcl.codec.hex.toBits`
builds it from the hex encoding of those bytes. -/
def wordsOfBytes : List Nat → List Int
  | [] => []
  | [b0] => [mkPart 8 (b0 * 2 ^ 24)]
  | [b0, b1] => [mkPart 16 ((b0 * 256 + b1) * 2 ^ 16)]
  | [b0, b1, b2] => [mkPart 24 (((b0 * 256 + b1) * 256 + b2) * 2 ^ 8)]
  | b0 :: b1 :: b2 :: b3 :: rest => toInt32 (word4 b0 b1 b2 b3) :: wordsOfBytes rest

/-- The four big-endian bytes of a stored word's 32-bit value. -/
def wordBytes (w : Int) : List Nat := be4 (toUint32 w).toNat

/-- Byte string represented by a byte-aligned stored-word array (the
final word contributes its `partLen / 8` significant bytes). -/
def bytesOfWords : List Int → List Nat
  | [] => []
  | [w] => (wordBytes w).take ((partLen w).toNat / 8)
  | w :: rest => wordBytes w ++ bytesOfWords rest

/-- `demangleNonce` as the response parser uses it: on the byte-aligned
bit array holding the mangled nonce bytes. -/
def demangleNonceBytes (b : List Nat) : Except EbErr (List Nat) :=
  (demangleNonceW (wordsOfBytes b)).map bytesOfWords

/-! ### ProcessData response parser (eb.comm.processDataResponseParser) -/

/-- The JSON response fields consumed by `parseCommonHeaders` and
`processDataResponseParser.parse`. -/
structure ResponseData where
  status : List Char
  func : List Char
  result : List Char
  deriving Repr, DecidableEq

/-- `eb.comm.processDataResponse`, the fields the parser fills. -/
structure ProcessDataResp where
  statusCode : Nat
  plainData : List Nat
  protectedData : List Nat
  userObjectID : Int
  nonce : List Nat
  mac : List Nat
  computedMac : List Nat
  deriving Repr, DecidableEq

/-- Response returned on a non-`0x9000` status (only the common headers are
filled; the crypto fields keep their defaults). -/
def errorResp (code : Nat) : ProcessDataResp :=
  ⟨code, [], [], 0, [], [], []⟩

/-- `substring(0, result.indexOf("_"))`: empty when no `_` occurs. -/
def headUptoUnderscore (s : List Char) : List Char :=
  if '_' ∈ s then s.takeWhile (· ≠ '_') else []

/-- `eb.comm.processDataResponseParser.parse` (eb-core.js:1753).  `D` is
the AES-256 block decryption keyed with `aesKey`, `M` the block encryption
keyed with `macKey`.  Follows the source step by step: common headers,
split at the first `_`, hex-decode, extract `plainLen`/plain/protected,
length checks, MAC comparison, CBC decryption with PKCS#7 unpad, response
flag check, UOid extraction, nonce demangling. -/
def processDataParse (D M : List Nat → List Nat) (data : ResponseData) :
    Except EbErr ProcessDataResp :=
  if data.status = [] ∨ data.func = [] then .error (.invalid "response data invalid")
  else
    let statusCode := hexVal data.status
    if statusCode ≠ 0x9000 then .ok (errorResp statusCode)
    else
      let baResult := hexToBytes (headUptoUnderscore data.result)
      let plainLen := 256 * ((baResult.get? 0).getD 0) + (baResult.get? 1).getD 0
      let plainBits := (baResult.drop 2).take plainLen
      let protectedBits := baResult.drop (2 + plainLen)
      let macTagOffset := protectedBits.length - 16
      let dataToMac := protectedBits.take macTagOffset
      if (8 * dataToMac.length) % 128 ≠ 0 then .error (.corrupt "Padding size invalid")
      else
        let mac := protectedBits.drop macTagOffset
        if mac.length ≠ 16 then .error (.corrupt "MAC corrupted")
        else
          let computedMac := cbcMac M dataToMac
          if mac ≠ computedMac then .error (.corrupt "Padding is not valid")
          else
            let dataToDecrypt := protectedBits.take macTagOffset
            if (8 * dataToDecrypt.length) % 128 ≠ 0 then
              .error (.corrupt "Ciphertext block invalid")
            else
              match cbcDecryptPkcs7 D (List.replicate 16 0) dataToDecrypt with
              | .error e => .error e
              | .ok decryptedData =>
                let responseFlag := (decryptedData.get? 0).getD 0
                if responseFlag ≠ 0xf1 then
                  .error (.corrupt "Given data packet is not a response (flag mismatch)")
                else
                  let uo := toInt32 (word4 ((decryptedData.get? 1).getD 0)
                    ((decryptedData.get? 2).getD 0) ((decryptedData.get? 3).getD 0)
                    ((decryptedData.get? 4).getD 0))
                  let returnedMangledNonce := (decryptedData.drop 5).take 8
                  match demangleNonceBytes returnedMangledNonce with
                  | .error e => .error e
                  | .ok respNonce =>
                    .ok ⟨statusCode, plainBits, decryptedData.drop 13, uo,
                      respNonce, mac, computedMac⟩

/-! ### Loopback server (modelled from the spec) -/

/-- Modelled from the spec: the server-side mirroring of the request frame
that the round-trip property describes — "a loopback that swaps the `0x1F`
flag for `0xF1` and adds `0x01010101` to the nonce" (per 32-bit nonce
word, with wrap-around). -/
def mirrorFrame (frame : List Nat) : List Nat :=
  let n := fun i => (frame.get? i).getD 0
  0xf1 :: ((frame.drop 1).take 4
    ++ be4 ((word4 (n 5) (n 6) (n 7) (n 8) + 0x01010101) % 2 ^ 32)
    ++ be4 ((word4 (n 9) (n 10) (n 11) (n 12) + 0x01010101) % 2 ^ 32)
    ++ frame.drop 13)

/-- Modelled from the spec: the loopback server.  It splits the built wire
string (`"Packet0_" ‖ reqType ‖ "_" ‖ plainLen(4 hex) ‖ plainData ‖ CT ‖
TAG`), decrypts `CT`, mirrors the frame with `mirrorFrame`, re-encrypts and
re-MACs it, and wraps the mirrored body in a `0x9000` JSON envelope. -/
def loopbackWire (E D M : List Nat → List Nat) (reqTypeLen : Nat)
    (wire : List Char) : ResponseData :=
  let afterPrefix := wire.drop (8 + reqTypeLen + 1)
  let plainLen := hexVal (afterPrefix.take 4)
  let plainData := hexToBytes ((afterPrefix.drop 4).take (2 * plainLen))
  let ctTag := hexToBytes ((afterPrefix.drop 4).drop (2 * plainLen))
  let ct := ctTag.take (ctTag.length - 16)
  let frame := (cbcDecChain D (List.replicate 16 0) (chunks16 ct)).flatten
  let ct2 := (cbcEncChain E (List.replicate 16 0) (chunks16 (mirrorFrame frame))).flatten
  let tag2 := cbcMac M ct2
  let body := hexOfBytes (be2 plainLen ++ plainData ++ ct2 ++ tag2)
  ⟨"9000".data, "ProcessData".data, body ++ "_OK".data⟩

/-! ### PKCS#1 v1.5 padding (eb.padding.pkcs15) -/

/-- `eb.padding.pkcs15.pad(a, blockLength, bt)`.  `rand i` stands for the
`i`-th byte accepted by the source's CSPRNG rejection loop
(`do { curByte = random & 0xff } while (curByte === 0)`); theorems that
depend on the filler constrain it to `0 < rand i < 256`. -/
def pkcs15Pad (rand : Nat → Nat) (a : List Nat) (blockLength bt : Nat) :
    Except EbErr (List Nat) :=
  if a.length = 0 then
    .error (.corrupt "input type has to have be byte padded")
  else if bt ≠ 0 ∧ bt ≠ 1 ∧ bt ≠ 2 then
    .error (.corrupt "invalid BT size")
  else if a.length + 3 > blockLength then
    .error (.corrupt "data to pad is too big for the padding block length")
  else
    let psLen := blockLength - 3 - a.length
    let ps := (List.range psLen).map
      (fun i => if bt = 1 then 0xff else if bt = 2 then rand i else 0)
    .ok (0 :: bt :: ps ++ 0 :: a)

/-! ### Handle codec (eb.comm.getUoHandle / eb.comm.parseHandle) -/

/-- `eb.comm.getUoHandle`: `apiKey` alone when no `uoId`; otherwise
`sprintf("%s00%08x00%08x", apiKey, uoId, uoType)` with `uoType`
defaulting to 0. -/
def getUoHandle (apiKey : List Char) (uoId uoType : Option Nat) : List Char :=
  match uoId with
  | none => apiKey
  | some uid =>
    apiKey ++ "00".data ++ sprintf08x uid ++ "00".data ++ sprintf08x (uoType.getD 0)

/-- Character class `[a-zA-Z0-9_-]` of the handle regex. -/
def handleChar (c : Char) : Bool := c.isAlpha || c.isDigit || c = '_' || c = '-'

/-- Character class `[0-9a-fA-F]` of the handle regex. -/
def hexDigitChar (c : Char) : Bool :=
  c.isDigit || ('a' ≤ c && c ≤ 'f') || ('A' ≤ c && c ≤ 'F')

/-- Parsed handle components (`res[3]` may be absent). -/
structure ParsedHandle where
  apiKey : List Char
  uoId : List Char
  uoType : Option (List Char)
  deriving Repr, DecidableEq

/-- Match of `00([0-9a-fA-F]{8})(?:00([0-9a-fA-F]{8}))?$` against `s`:
the greedy optional group is tried present first, then absent. -/
def matchHandleTail (s : List Char) : Option (List Char × Option (List Char)) :=
  let g2 := (s.drop 2).take 8
  if s.take 2 = ['0', '0'] ∧ g2.length = 8 ∧ g2.all hexDigitChar then
    let r := s.drop 10
    let g3 := (r.drop 2).take 8
    if r.take 2 = ['0', '0'] ∧ g3.length = 8 ∧ g3.all hexDigitChar ∧ r.length = 10 then
      some (g2, some g3)
    else if r = [] then some (g2, none)
    else none
  else none

/-- Backtracking search for the lazy group
`([a-zA-Z0-9_-]+?)` of the handle regex: group-1 lengths are tried in
increasing order starting from `len`, exactly as the lazy quantifier does. -/
def parseHandleFrom (s : List Char) (len : Nat) : Option ParsedHandle :=
  if _h : s.length < len then none
  else
    let g1 := s.take len
    match if 1 ≤ len ∧ g1.all handleChar then matchHandleTail (s.drop len) else none with
    | some (g2, g3) => some ⟨g1, g2, g3⟩
    | none => parseHandleFrom s (len + 1)
termination_by s.length + 1 - len

/-- `eb.comm.parseHandle`: match
`^([a-zA-Z0-9_-]+?)00([0-9a-fA-F]{8})(?:00([0-9a-fA-F]{8}))?$`. -/
def parseHandle (handle : List Char) : Except EbErr ParsedHandle :=
  match parseHandleFrom handle 1 with
  | none => .error (.invalid "Invalid handle")
  | some p => .ok p

/-! ### Bit-level container (sjcl.bitArray slice/concat, eb.misc part ops)

Modelled from the spec: §4.A describes the bit container as a sequence of
bits with exact bit-length tracking and `slice`/`concat` operations; the
sjcl word-array realisation lives outside `src/`, so the container is
embedded as `List Bool` with `bitSlice = take/drop` and `concat = append`. -/

/-- Big-endian bits of a byte. -/
def bitsOfByte (b : Nat) : List Bool :=
  (List.range 8).map (fun i => b / 2 ^ (7 - i) % 2 = 1)

/-- Bit string of a byte string. -/
def bitsOfBytes (l : List Nat) : List Bool := l.flatMap bitsOfByte

/-- Big-endian value of a bit string. -/
def bitsVal (l : List Bool) : Nat := l.foldl (fun a b => 2 * a + (if b then 1 else 0)) 0

/-- Byte string of a byte-aligned bit string. -/
def bytesOfBits (l : List Bool) : List Nat :=
  if h : l = [] then [] else bitsVal (l.take 8) :: bytesOfBits (l.drop 8)
termination_by l.length
decreasing_by
  simp only [List.length_drop]
  have : l.length ≠ 0 := fun hl => h (List.eq_nil_of_length_eq_zero hl)
  omega

/-- `sjcl.bitArray.extract(x, 0, 8)` on a (at most 8-bit) slice: the slice
is read left-aligned, missing low bits are zero. -/
def bitsVal8 (l : List Bool) : Nat := bitsVal ((l ++ List.replicate 8 false).take 8)

/-- `eb.misc.replacePart` (eb-core.js:345):
`bitSlice(buffer, 0, start) ‖ replacement ‖ bitSlice(buffer, end)`. -/
def replacePart (buffer : List Bool) (offsetStartBit offsetEndBit : Nat)
    (replacement : List Bool) : List Bool :=
  buffer.take offsetStartBit ++ replacement ++ buffer.drop offsetEndBit

/-- `eb.misc.transformPart` (eb-core.js:362): like `replacePart` with the
replacement computed by `fction` from the extracted slice. -/
def transformPart (buffer : List Bool) (offsetStartBit offsetEndBit : Nat)
    (fction : List Bool → List Bool) : List Bool :=
  buffer.take offsetStartBit
    ++ fction ((buffer.drop offsetStartBit).take (offsetEndBit - offsetStartBit))
    ++ buffer.drop offsetEndBit

/-! ### Template filler (eb.comm.createUO.templateFiller) -/

/-- One `keyoffsets` record of a template. -/
structure KeyOffset where
  ktype : String
  koff : Nat
  klen : Nat
  deriving Repr, DecidableEq

/-- One `importkeys` record of a template (`ikey` is the TLV-serialised
public key as bytes). -/
structure ImportKey where
  itype : String
  ikey : List Nat
  deriving Repr, DecidableEq

/-- The template record fields used by the filler.  `objectid` is stored as
the parsed numeric value of the hex string (`parseInt(template.objectid, 16)`). -/
structure UOTemplate where
  templateBits : List Bool
  encryptionoffset : Nat
  flagoffset : Nat
  keyoffsets : List KeyOffset
  importkeys : List ImportKey
  objectid : Nat
  deriving Repr, DecidableEq

/-- The key-splicing loop of `templateFiller.build` (eb-core.js:4510-4530):
a slot whose type is missing from `keys`, or whose supplied key's bit
length differs from the recorded length, is logged and skipped
(`continue`); otherwise the key is spliced and, for the `app` slot, the
`appKeyProvided` flag is set. -/
def spliceKeys (ba : List Bool) (offs : List KeyOffset)
    (keys : List (String × List Bool)) : List Bool × Bool :=
  offs.foldl
    (fun acc cKeyOff =>
      if cKeyOff.ktype = "" then acc
      else
        match keys.lookup cKeyOff.ktype with
        | none => acc
        | some keyBits =>
          if keyBits.length ≠ cKeyOff.klen then acc
          else
            (replacePart acc.1 cKeyOff.koff (cKeyOff.koff + cKeyOff.klen) keyBits,
             acc.2 || cKeyOff.ktype = "app"))
    (ba, false)

/-- The flag-byte transform of `templateFiller.build` (eb-core.js:4534):
clear bit 3 (`~0x8`), and bit 4 (`~0x10`) when an app key was supplied. -/
def flagTransform (appKeyProvided : Bool) (x : List Bool) : List Bool :=
  let num := bitsVal8 x
  let num := Nat.land num 0xf7
  let num := if appKeyProvided then Nat.land num 0xef else num
  bitsOfByte num

/-- `eb.comm.createUO.utils.readSerializedPubKey` inner loop: scan
`tag(1B) ‖ len(2B) ‖ value` records; the last `0x81` record read wins for
`e`, the last `0x82` for `n`, unknown tags are skipped. -/
def readPubKeyLoop (ba : List Nat) (pos : Nat) :
    Option (List Nat) × Option (List Nat) :=
  if _h : pos < ba.length then
    let tag := (ba.get? pos).getD 0
    let len := 256 * ((ba.get? (pos + 1)).getD 0) + (ba.get? (pos + 2)).getD 0
    let dat := (ba.drop (pos + 3)).take len
    let rest := readPubKeyLoop ba (pos + 3 + len)
    match tag with
    | 0x81 => (rest.1, match rest.2 with | some x => some x | none => some dat)
    | 0x82 => ((match rest.1 with | some x => some x | none => some dat), rest.2)
    | _ => rest
  else (none, none)
termination_by ba.length - pos

/-- `readSerializedPubKey`: returns `(n, e)` or the `invalid` error. -/
def readSerializedPubKey (pubKey : List Nat) :
    Except EbErr (List Nat × List Nat) :=
  match readPubKeyLoop pubKey 0 with
  | (some n, some e) => .ok (n, e)
  | _ => .error (.invalid "Could not deserialize TLV serialized public key")

/-- `templateFiller._getBestImportKey`: the first `rsa2048` key, else the
first `rsa1024` key. -/
def getBestImportKey (importKeys : List ImportKey) : Option ImportKey :=
  match importKeys.find? (fun k => k.itype = "rsa2048") with
  | some k => some k
  | none => importKeys.find? (fun k => k.itype = "rsa1024")

/-- `templateFiller._rsaEncrypt`: PKCS#1 v1.5 type-2 pad to the modulus
length, parse the TLV public key, and compute `msg^e mod n` (jsbn
`modPowInt`), re-serialised as a minimal big-endian byte string
(`padHexToEven(res.toString(16))`). -/
def rsaEncrypt (randPS : Nat → Nat) (input : List Nat) (key : ImportKey) :
    Except EbErr (List Nat) :=
  let iKeyBl := if key.itype = "rsa2048" then 2048 else 1024
  match pkcs15Pad randPS input (iKeyBl / 8) 2 with
  | .error e => .error e
  | .ok data =>
    match readSerializedPubKey key.ikey with
    | .error e => .error e
    | .ok (n, e) =>
      .ok (natToBytesEven ((bytesToNat data ^ bytesToNat e) % bytesToNat n))

/-- Result of `templateFiller.build`. -/
structure FilledTemplate where
  uo : List Nat
  keyUsed : ImportKey
  deriving Repr, DecidableEq

/-- `eb.comm.createUO.templateFiller.build` (eb-core.js:4491).  `tek`/`tmk`
are the 256-bit transport keys drawn from the CSPRNG, `E_tek`/`M_tmk` the
corresponding abstract AES-256 block ciphers, `randPS` the PKCS#1 filler
stream.  Byte-misaligned templates are rejected up front: on such input
the source's word-level pipeline throws inside `sjcl.mode.cbc.encrypt`
("when padding is disabled, ..."), and no claim concerns that path.  A
missing import key crashes the source (`key.type` on `undefined`); this is
modelled as an `invalid` error. -/
def templateFillerBuild (E_tek M_tmk : List Nat → List Nat) (randPS : Nat → Nat)
    (tek tmk : List Nat) (template : UOTemplate)
    (keys : List (String × List Bool)) : Except EbErr FilledTemplate :=
  if template.templateBits.length % 8 ≠ 0 ∨ template.encryptionoffset % 8 ≠ 0 then
    .error (.invalid
      "when padding is disabled, plaintext has to be a positive multiple of a block size")
  else
    let sp := spliceKeys template.templateBits template.keyoffsets keys
    let ba := transformPart sp.1 (template.flagoffset + 8) (template.flagoffset + 16)
      (flagTransform sp.2)
    if ba.length % 8 ≠ 0 then
      .error (.invalid
        "when padding is disabled, plaintext has to be a positive multiple of a block size")
    else
      let baPlain := bytesOfBits (ba.take template.encryptionoffset)
      let baProtected := pkcs7Pad (bytesOfBits (ba.drop template.encryptionoffset))
      match cbcEncryptNoPad E_tek (List.replicate 16 0) baProtected with
      | .error e => .error e
      | .ok ct =>
        let inner0 := pkcs7Pad (baPlain ++ ct)
        let inner := inner0 ++ cbcMac M_tmk inner0
        match getBestImportKey template.importkeys with
        | none => .error (.invalid "no import key available")
        | some iKey =>
          let baRsaEnc := be4 (template.objectid % 2 ^ 32) ++ tek ++ tmk
          match rsaEncrypt randPS baRsaEnc iKey with
          | .error e => .error e
          | .ok wrapped =>
            .ok ⟨0xa1 :: (be2 (wrapped.length % 2 ^ 16) ++ wrapped)
              ++ 0xa2 :: (be2 (inner.length % 2 ^ 16) ++ inner), iKey⟩

/-! ### Helper lemmas: hex codec -/

theorem hexCharVal_hexChar : ∀ n < 16, hexCharVal (hexChar n) = n := by decide

theorem hexCharVal_hexCharU : ∀ n < 16, hexCharVal (hexCharU n) = n := by decide

theorem hexChar_ne_underscore : ∀ n < 16, hexChar n ≠ '_' := by decide

theorem hexOfBytes_nil : hexOfBytes [] = [] := rfl

theorem hexOfBytes_cons (b : Nat) (t : List Nat) :
    hexOfBytes (b :: t) = hexChar (b / 16 % 16) :: hexChar (b % 16) :: hexOfBytes t := rfl

theorem hexOfBytes_append (x y : List Nat) :
    hexOfBytes (x ++ y) = hexOfBytes x ++ hexOfBytes y := by
  simp [hexOfBytes]

theorem length_hexOfBytes (x : List Nat) : (hexOfBytes x).length = 2 * x.length := by
  induction x with
  | nil => rfl
  | cons b t ih => simp [hexOfBytes_cons, ih]; omega

theorem mem_hexOfBytes_ne_underscore (x : List Nat) :
    ∀ c ∈ hexOfBytes x, c ≠ '_' := by
  induction x with
  | nil => simp [hexOfBytes]
  | cons b t ih =>
    simp only [hexOfBytes_cons, List.mem_cons]
    rintro c (rfl | rfl | hc)
    · exact hexChar_ne_underscore _ (Nat.mod_lt _ (by omega))
    · exact hexChar_ne_underscore _ (Nat.mod_lt _ (by omega))
    · exact ih c hc

theorem hexToBytes_hexOfBytes (x : List Nat) (hx : ∀ b ∈ x, b < 256) :
    hexToBytes (hexOfBytes x) = x := by
  induction x with
  | nil => rfl
  | cons b t ih =>
    have hb : b < 256 := hx b (List.mem_cons_self ..)
    rw [hexOfBytes_cons, hexToBytes,
      hexCharVal_hexChar _ (Nat.mod_lt _ (by omega)),
      hexCharVal_hexChar _ (Nat.mod_lt _ (by omega)),
      ih (fun y hy => hx y (List.mem_cons_of_mem _ hy))]
    congr 1
    omega

theorem hexVal_append_singleton (s : List Char) (c : Char) :
    hexVal (s ++ [c]) = 16 * hexVal s + hexCharVal c := by
  simp [hexVal]

theorem hexVal_natToHexU (n : Nat) : hexVal (natToHexU n) = n := by
  induction n using Nat.strong_induction_on with
  | _ n ih =>
    rw [natToHexU]
    by_cases h : n < 16
    · simp only [h, dite_true]
      show hexVal [hexCharU n] = n
      simp [hexVal, hexCharVal_hexCharU n h]
    · simp only [h, dite_false]
      rw [hexVal_append_singleton, ih (n / 16) (Nat.div_lt_self (by omega) (by omega)),
        hexCharVal_hexCharU _ (Nat.mod_lt _ (by omega))]
      omega

theorem hexVal_natToHexL (n : Nat) : hexVal (natToHexL n) = n := by
  induction n using Nat.strong_induction_on with
  | _ n ih =>
    rw [natToHexL]
    by_cases h : n < 16
    · simp only [h, dite_true]
      show hexVal [hexChar n] = n
      simp [hexVal, hexCharVal_hexChar n h]
    · simp only [h, dite_false]
      rw [hexVal_append_singleton, ih (n / 16) (Nat.div_lt_self (by omega) (by omega)),
        hexCharVal_hexChar _ (Nat.mod_lt _ (by omega))]
      omega

theorem hexVal_replicate_zero_append (k : Nat) (s : List Char) :
    hexVal (List.replicate k '0' ++ s) = hexVal s := by
  induction k with
  | zero => rfl
  | succ k ih =>
    rw [List.replicate_succ, List.cons_append]
    show hexVal (List.replicate k '0' ++ s) = _
    exact ih

theorem hexVal_sprintf04X (n : Nat) : hexVal (sprintf04X n) = n := by
  rw [sprintf04X, hexVal_replicate_zero_append, hexVal_natToHexU]

theorem natToHexU_len_le : ∀ k, ∀ n, n < 16 ^ (k + 1) → (natToHexU n).length ≤ k + 1 := by
  intro k
  induction k with
  | zero =>
    intro n hn
    rw [natToHexU]
    have h16 : n < 16 := by simpa using hn
    simp [h16]
  | succ k ih =>
    intro n hn
    rw [natToHexU]
    by_cases h : n < 16
    · simp [h]
    · simp only [h, dite_false, List.length_append, List.length_singleton]
      have : n / 16 < 16 ^ (k + 1) := by
        rw [Nat.div_lt_iff_lt_mul (by omega)]
        calc n < 16 ^ (k + 2) := hn
        _ = 16 ^ (k + 1) * 16 := by ring
      exact Nat.add_le_add_right (ih _ this) 1

theorem natToHexU_len_ge : ∀ k, ∀ n, 16 ^ k ≤ n → k + 1 ≤ (natToHexU n).length := by
  intro k
  induction k with
  | zero => intro n _; rw [natToHexU]; by_cases h : n < 16 <;> simp [h]
  | succ k ih =>
    intro n hn
    have h16 : ¬ n < 16 := by
      have : 16 ≤ 16 ^ (k + 1) := by
        calc (16:Nat) = 16 ^ 1 := (pow_one 16).symm
        _ ≤ 16 ^ (k + 1) := Nat.pow_le_pow_right (by omega) (by omega)
      omega
    rw [natToHexU]
    simp only [h16, dite_false, List.length_append, List.length_singleton]
    have : 16 ^ k ≤ n / 16 := by
      rw [Nat.le_div_iff_mul_le (by omega)]
      calc 16 ^ k * 16 = 16 ^ (k + 1) := by ring
      _ ≤ n := hn
    exact Nat.add_le_add_right (ih _ this) 1

theorem sprintf04X_length_of_lt (n : Nat) (h : n < 2 ^ 16) : (sprintf04X n).length = 4 := by
  have h4 : (natToHexU n).length ≤ 4 := natToHexU_len_le 3 n (by norm_num; omega)
  simp [sprintf04X]
  omega

theorem sprintf04X_length_of_ge (n : Nat) (h : 2 ^ 16 ≤ n) : 4 < (sprintf04X n).length := by
  have h5 : 5 ≤ (natToHexU n).length := natToHexU_len_ge 4 n (by norm_num; omega)
  simp [sprintf04X]
  omega

/-! ### Helper lemmas: PKCS#7 -/

theorem pkcs7Pad_eq (x : List Nat) :
    pkcs7Pad x = x ++ List.replicate (16 - x.length % 16) (16 - x.length % 16) := rfl

theorem pkcs7Pad_length (x : List Nat) :
    (pkcs7Pad x).length = x.length + (16 - x.length % 16) := by
  simp [pkcs7Pad_eq]

theorem pkcs7Pad_length_mod (x : List Nat) : (pkcs7Pad x).length % 16 = 0 := by
  rw [pkcs7Pad_length]
  omega

theorem pkcs7Pad_length_pos (x : List Nat) : 0 < (pkcs7Pad x).length := by
  rw [pkcs7Pad_length]
  omega

theorem getLast?_replicate_of_pos (k a : Nat) (hk : 1 ≤ k) :
    (List.replicate k a).getLast? = some a := by
  rcases Nat.exists_eq_add_of_le hk with ⟨n, rfl⟩
  rw [show 1 + n = n + 1 by omega, List.replicate_succ', List.getLast?_concat]

theorem pkcs7Unpad_append_replicate (x : List Nat) (k : Nat) (hk1 : 1 ≤ k)
    (hk16 : k ≤ 16) (hmod : (x.length + k) % 16 = 0) :
    pkcs7Unpad (x ++ List.replicate k k) = .ok x := by
  have hlen : (x ++ List.replicate k k).length = x.length + k := by simp
  have hlast : (x ++ List.replicate k k).getLast? = some k := by
    rw [List.getLast?_append_of_ne_nil x (by simp; omega)]
    exact getLast?_replicate_of_pos k k hk1
  have hsub : x.length + k - k = x.length := by omega
  have hdrop : (x ++ List.replicate k k).drop (x.length + k - k) = List.replicate k k := by
    rw [hsub, List.drop_append_of_le_length (le_refl _), List.drop_length,
      List.nil_append]
  have htake : (x ++ List.replicate k k).take (x.length + k - k) = x := by
    rw [hsub, List.take_append_of_le_length (le_refl _), List.take_length]
  rw [pkcs7Unpad, if_neg (by rw [hlen]; push_neg; exact ⟨hmod, by omega⟩)]
  simp only [hlast, Option.getD_some, Nat.mod_eq_of_lt (show k < 256 by omega), hlen,
    hdrop, htake]
  rw [if_neg (by omega), if_neg (by simp)]

theorem pkcs7Unpad_pkcs7Pad (x : List Nat) : pkcs7Unpad (pkcs7Pad x) = .ok x := by
  rw [pkcs7Pad_eq]
  exact pkcs7Unpad_append_replicate x _ (by omega) (by omega) (by omega)

/-! ### Helper lemmas: block chunking and CBC -/

theorem chunks16_nil : chunks16 [] = [] := by rw [chunks16]; simp

theorem chunks16_cons_of_ne_nil (l : List Nat) (h : l ≠ []) :
    chunks16 l = l.take 16 :: chunks16 (l.drop 16) := by
  rw [chunks16]
  simp [h]

theorem chunks16_append16 (x y : List Nat) (hx : x.length = 16) :
    chunks16 (x ++ y) = x :: chunks16 y := by
  rw [chunks16_cons_of_ne_nil _ (by
    intro h
    have := congrArg List.length h
    simp [hx] at this)]
  congr 1
  · rw [List.take_append_of_le_length (by omega), ← hx, List.take_length]
  · rw [List.drop_append_of_le_length (by omega), ← hx, List.drop_length,
      List.nil_append]

theorem chunks16_blocks (p : List Nat) (hp : p.length % 16 = 0) :
    ∀ b ∈ chunks16 p, b.length = 16 := by
  suffices H : ∀ n (p : List Nat), p.length = n → p.length % 16 = 0 →
      ∀ b ∈ chunks16 p, b.length = 16 from H _ p rfl hp
  intro n
  induction n using Nat.strong_induction_on with
  | _ n ih =>
    intro p hn hp b hb
    rcases Decidable.em (p = []) with rfl | hne
    · simp [chunks16_nil] at hb
    · have hpos : p.length ≠ 0 := fun h => hne (List.eq_nil_of_length_eq_zero h)
      have h16 : 16 ≤ p.length := by omega
      rw [chunks16_cons_of_ne_nil _ hne, List.mem_cons] at hb
      rcases hb with rfl | hb
      · simp
        omega
      · exact ih (p.drop 16).length (by simp; omega) _ rfl (by simp; omega) b hb

theorem chunks16_flatten (L : List (List Nat)) (hL : ∀ b ∈ L, b.length = 16) :
    chunks16 L.flatten = L := by
  induction L with
  | nil => simp [chunks16_nil]
  | cons b t ih =>
    rw [List.flatten_cons, chunks16_append16 _ _ (hL b (List.mem_cons_self ..)),
      ih (fun x hx => hL x (List.mem_cons_of_mem _ hx))]

theorem flatten_chunks16 (p : List Nat) : (chunks16 p).flatten = p := by
  suffices H : ∀ n (p : List Nat), p.length = n → (chunks16 p).flatten = p from
    H _ p rfl
  intro n
  induction n using Nat.strong_induction_on with
  | _ n ih =>
    intro p hn
    rcases Decidable.em (p = []) with rfl | hne
    · simp [chunks16_nil]
    · have hpos : p.length ≠ 0 := fun h => hne (List.eq_nil_of_length_eq_zero h)
      rw [chunks16_cons_of_ne_nil _ hne, List.flatten_cons,
        ih (p.drop 16).length (by simp; omega) _ rfl]
      exact List.take_append_drop 16 p

theorem xorBytes_length (x y : List Nat) :
    (xorBytes x y).length = min x.length y.length := by
  simp [xorBytes]

theorem xorBytes_xorBytes_cancel (c b : List Nat) (h : c.length = b.length) :
    xorBytes c (xorBytes c b) = b := by
  induction c generalizing b with
  | nil => cases b with
    | nil => rfl
    | cons y t => simp at h
  | cons x t ih =>
    cases b with
    | nil => simp at h
    | cons y s =>
      simp only [xorBytes, List.zipWith_cons_cons] at *
      have hx : x.xor (x.xor y) = y := Nat.xor_cancel_left x y
      rw [hx]
      have hts : t.length = s.length := by simpa using h
      have := ih s hts
      simp only [xorBytes] at this
      rw [this]

theorem cbcEncChain_blocks (E : List Nat → List Nat)
    (hE : ∀ b, b.length = 16 → (E b).length = 16) (c : List Nat) (hc : c.length = 16)
    (bs : List (List Nat)) (hbs : ∀ b ∈ bs, b.length = 16) :
    ∀ b ∈ cbcEncChain E c bs, b.length = 16 := by
  induction bs generalizing c with
  | nil => simp [cbcEncChain]
  | cons b t ih =>
    have hb : b.length = 16 := hbs b (List.mem_cons_self ..)
    have hc2 : (E (xorBytes c b)).length = 16 :=
      hE _ (by rw [xorBytes_length, hc, hb]; rfl)
    intro u hu
    rw [cbcEncChain] at hu
    simp only [List.mem_cons] at hu
    rcases hu with rfl | hu
    · exact hc2
    · exact ih _ hc2 (fun v hv => hbs v (List.mem_cons_of_mem _ hv)) u hu

theorem xorBytes_mem : ∀ (c b : List Nat), (∀ x ∈ c, x < 256) → (∀ x ∈ b, x < 256) →
    ∀ x ∈ xorBytes c b, x < 256
  | [], _, _, _ => by simp [xorBytes]
  | _ :: _, [], _, _ => by simp [xorBytes]
  | c0 :: ct, b0 :: bt, hc, hb => by
    simp only [xorBytes, List.zipWith_cons_cons, List.mem_cons]
    rintro x (rfl | hx)
    · have h1 : c0 < 2 ^ 8 := lt_of_lt_of_le (hc c0 (by simp)) (by norm_num)
      have h2 : b0 < 2 ^ 8 := lt_of_lt_of_le (hb b0 (by simp)) (by norm_num)
      exact lt_of_lt_of_le (Nat.xor_lt_two_pow h1 h2) (by norm_num)
    · exact xorBytes_mem ct bt (fun v hv => hc v (by simp [hv]))
        (fun v hv => hb v (by simp [hv])) x hx

theorem replicate_zero_mem : ∀ x ∈ List.replicate 16 (0 : Nat), x < 256 := by
  intro x hx
  rw [List.eq_of_mem_replicate hx]
  omega

theorem chunks16_subset : ∀ n (p : List Nat), p.length ≤ n →
    ∀ b ∈ chunks16 p, ∀ x ∈ b, x ∈ p := by
  intro n
  induction n with
  | zero =>
    intro p hp b hb
    have hpe : p = [] := List.eq_nil_of_length_eq_zero (by omega)
    subst hpe
    rw [chunks16] at hb
    simp at hb
  | succ n ih =>
    intro p hp b hb x hx
    rw [chunks16] at hb
    by_cases hpe : p = []
    · rw [dif_pos hpe] at hb
      simp at hb
    · rw [dif_neg hpe] at hb
      rcases List.mem_cons.mp hb with rfl | hb2
      · exact List.take_subset _ _ hx
      · have hplen : 0 < p.length :=
          List.length_pos.mpr hpe
        have : x ∈ p.drop 16 := ih (p.drop 16) (by simp; omega) b hb2 x hx
        exact List.drop_subset _ _ this

theorem chunks16_mem_lt (p : List Nat) (hpb : ∀ x ∈ p, x < 256) :
    ∀ b ∈ chunks16 p, ∀ x ∈ b, x < 256 :=
  fun b hb x hx => hpb x (chunks16_subset p.length p (le_refl _) b hb x hx)

theorem pkcs7Pad_mem (m : List Nat) (hmb : ∀ x ∈ m, x < 256) :
    ∀ x ∈ pkcs7Pad m, x < 256 := by
  intro x hx
  rw [pkcs7Pad_eq] at hx
  rcases List.mem_append.mp hx with h | h
  · exact hmb x h
  · rw [List.eq_of_mem_replicate h]
    omega

theorem cbcDecChain_cbcEncChain (E D : List Nat → List Nat)
    (hE : ∀ b, b.length = 16 → (E b).length = 16)
    (hE_mem : ∀ b, b.length = 16 → ∀ x ∈ E b, x < 256)
    (hDE : ∀ b, b.length = 16 → (∀ x ∈ b, x < 256) → D (E b) = b)
    (c : List Nat) (hc : c.length = 16) (hcb : ∀ x ∈ c, x < 256)
    (bs : List (List Nat)) (hbs : ∀ b ∈ bs, b.length = 16)
    (hbsb : ∀ b ∈ bs, ∀ x ∈ b, x < 256) :
    cbcDecChain D c (cbcEncChain E c bs) = bs := by
  induction bs generalizing c with
  | nil => rfl
  | cons b t ih =>
    have hb : b.length = 16 := hbs b (List.mem_cons_self ..)
    have hbb : ∀ x ∈ b, x < 256 := hbsb b (List.mem_cons_self ..)
    have hxl : (xorBytes c b).length = 16 := by rw [xorBytes_length, hc, hb]; rfl
    have hxb : ∀ x ∈ xorBytes c b, x < 256 := xorBytes_mem c b hcb hbb
    rw [cbcEncChain, cbcDecChain, hDE _ hxl hxb, xorBytes_xorBytes_cancel c b (by omega),
      ih _ (hE _ hxl) (hE_mem _ hxl) (fun v hv => hbs v (List.mem_cons_of_mem _ hv))
        (fun v hv => hbsb v (List.mem_cons_of_mem _ hv))]

theorem length_flatten_blocks (L : List (List Nat)) (hL : ∀ b ∈ L, b.length = 16) :
    L.flatten.length = 16 * L.length := by
  induction L with
  | nil => rfl
  | cons b t ih =>
    simp only [List.flatten_cons, List.length_append, List.length_cons,
      hL b (List.mem_cons_self ..), ih (fun v hv => hL v (List.mem_cons_of_mem _ hv))]
    ring

theorem length_chunks16 (p : List Nat) (hp : p.length % 16 = 0) :
    (chunks16 p).flatten.length = p.length := by rw [flatten_chunks16]

theorem cbcMacChain_length (M : List Nat → List Nat)
    (hM : ∀ b, b.length = 16 → (M b).length = 16) (c : List Nat) (hc : c.length = 16)
    (bs : List (List Nat)) (hbs : ∀ b ∈ bs, b.length = 16) :
    (cbcMacChain M c bs).length = 16 := by
  induction bs generalizing c with
  | nil => exact hc
  | cons b t ih =>
    rw [cbcMacChain]
    exact ih _ (hM _ (by rw [xorBytes_length, hc, hbs b (List.mem_cons_self ..)]; rfl))
      (fun v hv => hbs v (List.mem_cons_of_mem _ hv))

theorem cbcMac_length (M : List Nat → List Nat)
    (hM : ∀ b, b.length = 16 → (M b).length = 16) (d : List Nat) :
    (cbcMac M d).length = 16 := by
  rw [cbcMac]
  refine cbcMacChain_length M hM _ (by simp) _ (fun b hb => ?_)
  refine chunks16_blocks _ ?_ b hb
  simp [Nat.mul_mod_right]
  omega

theorem cbcMac_of_aligned (M : List Nat → List Nat) (d : List Nat)
    (hd : d.length % 16 = 0) :
    cbcMac M d = cbcMacChain M (List.replicate 16 0) (chunks16 d) := by
  rw [cbcMac]
  congr 1
  rw [show 16 * (d.length / 16) = d.length from by omega, List.take_length]

/-! ### Helper lemmas: stored-word model -/

theorem toInt32_bounds (x : Int) : -2 ^ 31 ≤ toInt32 x ∧ toInt32 x < 2 ^ 31 := by
  rw [toInt32]
  have h1 : 0 ≤ x % 2 ^ 32 := Int.emod_nonneg x (by norm_num)
  have h2 : x % 2 ^ 32 < 2 ^ 32 := Int.emod_lt_of_pos x (by norm_num)
  by_cases h : x % 2 ^ 32 < 2 ^ 31
  · rw [if_pos h]
    omega
  · rw [if_neg h]
    omega

theorem fdiv_eq_zero_of_bounds (a b : Int) (h0 : 0 ≤ a) (hb : a < b) :
    a.fdiv b = 0 := by
  rw [Int.fdiv_eq_ediv _ (by omega)]
  exact Int.ediv_eq_zero_of_lt h0 hb

theorem partLen_eq_32 (w : Int) (h1 : -2 ^ 39 ≤ w) (h2 : w < 2 ^ 39) :
    partLen w = 32 := by
  rw [partLen]
  rw [fdiv_eq_zero_of_bounds _ _ (by omega) (by omega)]
  rfl

theorem bitLengthW_pair (x y : Int) : bitLengthW [x, y] = 32 + partLen y := by
  simp [bitLengthW]

theorem demangleNonceW_pair (x y : Int)
    (hx1 : -2 ^ 31 ≤ x) (hx2 : x < 2 ^ 31) (hy1 : -2 ^ 31 ≤ y) (hy2 : y < 2 ^ 31) :
    demangleNonceW [x, y] = .ok [x - 0x01010101, y - 0x01010101] := by
  have hbl : bitLengthW [x, y] = 64 := by
    rw [bitLengthW_pair, partLen_eq_32 y (by omega) (by omega)]
    norm_num
  simp only [demangleNonceW, hbl]
  rw [if_neg (by decide)]
  rw [show ((64 : Int).fdiv 32).toNat = 2 from by decide]
  rw [show List.range 2 = [0, 1] from by decide]
  simp only [List.map_cons, List.map_nil]
  rw [show ([x, y].get? 0).getD 0 = x from rfl, show ([x, y].get? 1).getD 0 = y from rfl]
  rw [if_neg (by decide)]
  rw [show ([x, y].get? 2) = none from rfl]
  show Except.ok (clampW [x - 16843009, y - 16843009, 0] 64) = _
  rw [clampW]
  rw [if_neg (by simp)]
  rw [show (((64 : Int) + 31).fdiv 32).toNat = 2 from by decide]
  simp only [List.take_succ_cons, List.take_zero]
  rw [show jsAnd 64 31 = 0 from by decide]
  simp

theorem emod_sub_congr (a x c n : Int) (h : a % n = x % n) :
    (a - c) % n = (x - c) % n := by
  rw [Int.sub_emod, h, ← Int.sub_emod]

theorem toUint32_toInt32_sub (x c : Int) :
    toUint32 (toInt32 x - c) = (x - c) % 2 ^ 32 := by
  rw [toUint32, toInt32]
  by_cases h : x % 2 ^ 32 < 2 ^ 31
  · rw [if_pos h]
    exact emod_sub_congr _ _ _ _ (Int.emod_emod_of_dvd x dvd_rfl)
  · rw [if_neg h]
    refine emod_sub_congr _ _ _ _ ?_
    rw [Int.sub_emod, Int.emod_self, sub_zero, Int.emod_emod_of_dvd x dvd_rfl,
      Int.emod_emod_of_dvd x dvd_rfl]

theorem word4_be4 (a : Nat) (ha : a < 2 ^ 32) :
    word4 (a / 2 ^ 24 % 256) (a / 2 ^ 16 % 256) (a / 2 ^ 8 % 256) (a % 256) = a := by
  rw [word4]
  omega

theorem be4_word4 (b0 b1 b2 b3 : Nat) (h0 : b0 < 256) (h1 : b1 < 256) (h2 : b2 < 256)
    (h3 : b3 < 256) : be4 (word4 b0 b1 b2 b3) = [b0, b1, b2, b3] := by
  have e0 : word4 b0 b1 b2 b3 / 2 ^ 24 % 256 = b0 := by rw [word4]; omega
  have e1 : word4 b0 b1 b2 b3 / 2 ^ 16 % 256 = b1 := by rw [word4]; omega
  have e2 : word4 b0 b1 b2 b3 / 2 ^ 8 % 256 = b2 := by rw [word4]; omega
  have e3 : word4 b0 b1 b2 b3 % 256 = b3 := by rw [word4]; omega
  rw [be4, e0, e1, e2, e3]

theorem wordsOfBytes_be4_be4 (a b : Nat) :
    wordsOfBytes (be4 a ++ be4 b) =
      [toInt32 (word4 (a / 2 ^ 24 % 256) (a / 2 ^ 16 % 256) (a / 2 ^ 8 % 256) (a % 256)),
       toInt32 (word4 (b / 2 ^ 24 % 256) (b / 2 ^ 16 % 256) (b / 2 ^ 8 % 256) (b % 256))] := by
  rfl

theorem bytesOfWords_pair (x y : Int) (hy1 : -2 ^ 39 ≤ y) (hy2 : y < 2 ^ 39) :
    bytesOfWords [x, y] = wordBytes x ++ wordBytes y := by
  have h1 : bytesOfWords [x, y] = wordBytes x ++ bytesOfWords [y] := rfl
  have h2 : bytesOfWords [y] = (wordBytes y).take ((partLen y).toNat / 8) := rfl
  rw [h1, h2, partLen_eq_32 y hy1 hy2]
  rw [show ((32 : Int).toNat / 8) = 4 from by decide]
  rw [wordBytes, be4]
  rfl

theorem except_map_ok {α β γ : Type} (f : α → β) (v : α) :
    (Except.ok v : Except γ α).map f = Except.ok (f v) := rfl

theorem demangleNonceBytes_mangled (a b : Nat) (ha : a < 2 ^ 32) (hb : b < 2 ^ 32) :
    demangleNonceBytes (be4 ((a + 0x01010101) % 2 ^ 32) ++ be4 ((b + 0x01010101) % 2 ^ 32)) =
      .ok (be4 a ++ be4 b) := by
  rw [demangleNonceBytes, wordsOfBytes_be4_be4,
    word4_be4 _ (Nat.mod_lt _ (by norm_num)), word4_be4 _ (Nat.mod_lt _ (by norm_num))]
  have hxa := toInt32_bounds ((((a + 0x01010101) % 2 ^ 32 : Nat) : Int))
  have hxb := toInt32_bounds ((((b + 0x01010101) % 2 ^ 32 : Nat) : Int))
  rw [demangleNonceW_pair _ _ hxa.1 hxa.2 hxb.1 hxb.2, except_map_ok]
  refine congrArg Except.ok ?_
  rw [bytesOfWords_pair _ _ (by omega) (by omega)]
  have hua : (toUint32 (toInt32 (((a + 0x01010101) % 2 ^ 32 : Nat) : Int) - 0x01010101)).toNat = a := by
    rw [toUint32_toInt32_sub]
    have he : ((((a + 0x01010101) % 2 ^ 32 : Nat) : Int) - 0x01010101) % 2 ^ 32 = (a : Int) := by
      have hcast : (((a + 0x01010101) % 2 ^ 32 : Nat) : Int) =
          ((a : Int) + 0x01010101) % 2 ^ 32 := by push_cast; rfl
      rw [hcast]
      omega
    rw [he]
    simp
  have hub : (toUint32 (toInt32 (((b + 0x01010101) % 2 ^ 32 : Nat) : Int) - 0x01010101)).toNat = b := by
    rw [toUint32_toInt32_sub]
    have he : ((((b + 0x01010101) % 2 ^ 32 : Nat) : Int) - 0x01010101) % 2 ^ 32 = (b : Int) := by
      have hcast : (((b + 0x01010101) % 2 ^ 32 : Nat) : Int) =
          ((b : Int) + 0x01010101) % 2 ^ 32 := by push_cast; rfl
      rw [hcast]
      omega
    rw [he]
    simp
  rw [wordBytes, wordBytes, hua, hub]

/-! ### Helper lemmas: list splitting and byte ranges -/

theorem take_exact {α : Type} (l1 l2 : List α) (n : Nat) (h : l1.length = n) :
    (l1 ++ l2).take n = l1 := by
  subst h
  rw [List.take_append_of_le_length (le_refl _), List.take_length]

theorem drop_exact {α : Type} (l1 l2 : List α) (n : Nat) (h : l1.length = n) :
    (l1 ++ l2).drop n = l2 := by
  subst h
  rw [List.drop_append_of_le_length (le_refl _), List.drop_length, List.nil_append]

theorem cbcEncChain_mem (E : List Nat → List Nat)
    (hE_len : ∀ b, b.length = 16 → (E b).length = 16)
    (hE_mem : ∀ b, b.length = 16 → ∀ x ∈ E b, x < 256) (c : List Nat)
    (hc : c.length = 16) (bs : List (List Nat)) (hbs : ∀ b ∈ bs, b.length = 16) :
    ∀ x ∈ (cbcEncChain E c bs).flatten, x < 256 := by
  induction bs generalizing c with
  | nil => simp [cbcEncChain]
  | cons b t ih =>
    have hx : (xorBytes c b).length = 16 := by
      rw [xorBytes_length, hc, hbs b (List.mem_cons_self ..)]; rfl
    intro x hmem
    rw [cbcEncChain] at hmem
    simp only [List.flatten_cons, List.mem_append] at hmem
    rcases hmem with hmem | hmem
    · exact hE_mem _ hx x hmem
    · exact ih _ (hE_len _ hx) (fun v hv => hbs v (List.mem_cons_of_mem _ hv)) x hmem

theorem cbcMacChain_mem (M : List Nat → List Nat)
    (hM_len : ∀ b, b.length = 16 → (M b).length = 16)
    (hM_mem : ∀ b, b.length = 16 → ∀ x ∈ M b, x < 256) (c : List Nat)
    (hc : c.length = 16) (hcm : ∀ x ∈ c, x < 256) (bs : List (List Nat))
    (hbs : ∀ b ∈ bs, b.length = 16) :
    ∀ x ∈ cbcMacChain M c bs, x < 256 := by
  induction bs generalizing c with
  | nil => exact hcm
  | cons b t ih =>
    have hx : (xorBytes c b).length = 16 := by
      rw [xorBytes_length, hc, hbs b (List.mem_cons_self ..)]; rfl
    rw [cbcMacChain]
    exact ih _ (hM_len _ hx) (hM_mem _ hx)
      (fun v hv => hbs v (List.mem_cons_of_mem _ hv))

theorem cbcMac_mem (M : List Nat → List Nat)
    (hM_len : ∀ b, b.length = 16 → (M b).length = 16)
    (hM_mem : ∀ b, b.length = 16 → ∀ x ∈ M b, x < 256) (d : List Nat) :
    ∀ x ∈ cbcMac M d, x < 256 := by
  rw [cbcMac]
  refine cbcMacChain_mem M hM_len hM_mem _ (by simp) (by simp) _ (fun b hb => ?_)
  exact chunks16_blocks _ (by simp [Nat.mul_mod_right]; omega) b hb

theorem cbcEncChain_length_eq (E : List Nat → List Nat) (c : List Nat)
    (bs : List (List Nat)) : (cbcEncChain E c bs).length = bs.length := by
  induction bs generalizing c with
  | nil => rfl
  | cons b t ih =>
    rw [cbcEncChain]
    simp only [List.length_cons]
    rw [ih]

theorem enc_flatten_length (E : List Nat → List Nat)
    (hE_len : ∀ b, b.length = 16 → (E b).length = 16) (p : List Nat)
    (hp : p.length % 16 = 0) :
    (cbcEncChain E (List.replicate 16 0) (chunks16 p)).flatten.length = p.length := by
  have hblocks := chunks16_blocks p hp
  have henc := cbcEncChain_blocks E hE_len (List.replicate 16 0) (by simp) _ hblocks
  rw [length_flatten_blocks _ henc, cbcEncChain_length_eq]
  have := length_flatten_blocks _ hblocks
  rw [flatten_chunks16] at this
  omega

theorem dec_of_enc (E D : List Nat → List Nat)
    (hE_len : ∀ b, b.length = 16 → (E b).length = 16)
    (hE_mem : ∀ b, b.length = 16 → ∀ x ∈ E b, x < 256)
    (hDE : ∀ b, b.length = 16 → (∀ x ∈ b, x < 256) → D (E b) = b)
    (p : List Nat) (hp : p.length % 16 = 0) (hpb : ∀ x ∈ p, x < 256) :
    (cbcDecChain D (List.replicate 16 0)
      (chunks16 (cbcEncChain E (List.replicate 16 0) (chunks16 p)).flatten)).flatten = p := by
  have hblocks := chunks16_blocks p hp
  have henc := cbcEncChain_blocks E hE_len (List.replicate 16 0) (by simp) _ hblocks
  rw [chunks16_flatten _ henc,
    cbcDecChain_cbcEncChain E D hE_len hE_mem hDE (List.replicate 16 0) (by simp)
      replicate_zero_mem _ hblocks (chunks16_mem_lt p hpb),
    flatten_chunks16]

theorem cbcDecryptPkcs7_enc_pad (E D : List Nat → List Nat)
    (hE_len : ∀ b, b.length = 16 → (E b).length = 16)
    (hE_mem : ∀ b, b.length = 16 → ∀ x ∈ E b, x < 256)
    (hDE : ∀ b, b.length = 16 → (∀ x ∈ b, x < 256) → D (E b) = b)
    (m : List Nat) (hmb : ∀ x ∈ m, x < 256) :
    cbcDecryptPkcs7 D (List.replicate 16 0)
      (cbcEncChain E (List.replicate 16 0) (chunks16 (pkcs7Pad m))).flatten = .ok m := by
  have hp := pkcs7Pad_length_mod m
  have hlen : (cbcEncChain E (List.replicate 16 0) (chunks16 (pkcs7Pad m))).flatten.length
      = (pkcs7Pad m).length := enc_flatten_length E hE_len _ hp
  have hout : (cbcDecChain D (List.replicate 16 0)
      (chunks16 (cbcEncChain E (List.replicate 16 0) (chunks16 (pkcs7Pad m))).flatten)).flatten
      = pkcs7Pad m := dec_of_enc E D hE_len hE_mem hDE _ hp (pkcs7Pad_mem m hmb)
  rw [cbcDecryptPkcs7]
  rw [if_neg (by simp)]
  rw [if_neg (by
    rw [hlen]
    push_neg
    exact ⟨hp, by have := pkcs7Pad_length_pos m; omega⟩)]
  rw [hout]
  set k := 16 - m.length % 16 with hk
  have hk1 : 1 ≤ k := by omega
  have hk16 : k ≤ 16 := by omega
  have hlast : (pkcs7Pad m).getLast? = some k := by
    rw [pkcs7Pad_eq, ← hk, List.getLast?_append_of_ne_nil m (by simp; omega)]
    exact getLast?_replicate_of_pos k k hk1
  have hsub : m.length + k - k = m.length := by omega
  have hdrop : (pkcs7Pad m).drop ((pkcs7Pad m).length - k) = List.replicate k k := by
    rw [pkcs7Pad_eq, ← hk]
    simp only [List.length_append, List.length_replicate, hsub]
    rw [drop_exact m _ m.length rfl]
  have htake : (pkcs7Pad m).take ((pkcs7Pad m).length - k) = m := by
    rw [pkcs7Pad_eq, ← hk]
    simp only [List.length_append, List.length_replicate, hsub]
    rw [take_exact m _ m.length rfl]
  simp only [hlast, Option.getD_some, Nat.mod_eq_of_lt (show k < 256 by omega), hdrop,
    htake]
  rw [if_neg (by omega), if_neg (by simp)]

theorem headUptoUnderscore_append (body t : List Char)
    (hb : ∀ c ∈ body, c ≠ '_') :
    headUptoUnderscore (body ++ '_' :: t) = body := by
  rw [headUptoUnderscore, if_pos (by simp)]
  induction body with
  | nil => simp
  | cons c s ih =>
    have hc : c ≠ '_' := hb c (List.mem_cons_self ..)
    rw [List.cons_append, List.takeWhile_cons_of_pos (by simp [hc])]
    rw [ih (fun d hd => hb d (List.mem_cons_of_mem _ hd))]

/-! ### The built request in closed form -/

/-- The ProcessData input frame `PDIN = 0x1F ‖ UOid(4B BE) ‖ nonce ‖ userData`. -/
def pdFrame (uoid : Nat) (nonce userData : List Nat) : List Nat :=
  0x1f :: (be4 (uoid % 2 ^ 32) ++ nonce ++ userData)

/-- `CT = AES-256-CBC(encKey, IV = 0, pkcs7(PDIN), nopad)` with the block
cipher abstracted as `E`. -/
def pdCipherText (E : List Nat → List Nat) (uoid : Nat)
    (nonce userData : List Nat) : List Nat :=
  (cbcEncChain E (List.replicate 16 0) (chunks16 (pkcs7Pad (pdFrame uoid nonce userData)))).flatten

theorem processDataBuild_eq (E M : List Nat → List Nat) (uoid : Nat)
    (nonce : List Nat) (reqType : List Char) (plainData userData : List Nat) :
    processDataBuild E M uoid nonce reqType plainData userData =
      .ok ("Packet0_".data ++ reqType ++ "_".data ++ sprintf04X plainData.length
        ++ hexOfBytes plainData ++ hexOfBytes (pdCipherText E uoid nonce userData)
        ++ hexOfBytes (cbcMac M (pdCipherText E uoid nonce userData))) := by
  rw [processDataBuild]
  have henc : cbcEncryptNoPad E (List.replicate 16 0)
      (pkcs7Pad (0x1f :: (be4 (uoid % 2 ^ 32) ++ nonce ++ userData))) =
      .ok (pdCipherText E uoid nonce userData) := by
    rw [cbcEncryptNoPad, if_neg (by simp), if_neg (by
      push_neg
      exact pkcs7Pad_length_mod _)]
    rfl
  rw [henc]

/-! ### Auxiliary list-arithmetic lemmas for the round trip -/

theorem take_add_exact {α : Type} (a y : List α) (k n : Nat) (h : a.length = k) :
    (a ++ y).take (k + n) = a ++ y.take n := by
  subst h
  induction a with
  | nil => simp
  | cons x t ih =>
    rw [List.cons_append, List.length_cons,
      show t.length + 1 + n = (t.length + n) + 1 from by omega, List.take_succ_cons, ih]
    rfl

theorem drop_add_exact {α : Type} (a y : List α) (k n : Nat) (h : a.length = k) :
    (a ++ y).drop (k + n) = y.drop n := by
  subst h
  induction a with
  | nil => simp
  | cons x t ih =>
    rw [List.cons_append, List.length_cons,
      show t.length + 1 + n = (t.length + n) + 1 from by omega, List.drop_succ_cons, ih]

theorem word4_lt (b0 b1 b2 b3 : Nat) (h0 : b0 < 256) (h1 : b1 < 256) (h2 : b2 < 256)
    (h3 : b3 < 256) : word4 b0 b1 b2 b3 < 2 ^ 32 := by
  rw [word4]
  omega

theorem mirrorFrame_eq (u0 u1 u2 u3 n0 n1 n2 n3 n4 n5 n6 n7 : Nat) (tail : List Nat) :
    mirrorFrame (0x1f :: u0 :: u1 :: u2 :: u3 ::
        n0 :: n1 :: n2 :: n3 :: n4 :: n5 :: n6 :: n7 :: tail) =
      0xf1 :: u0 :: u1 :: u2 :: u3 ::
        (be4 ((word4 n0 n1 n2 n3 + 0x01010101) % 2 ^ 32)
          ++ (be4 ((word4 n4 n5 n6 n7 + 0x01010101) % 2 ^ 32) ++ tail)) := by
  rw [mirrorFrame]
  simp [List.get?]

/-- The mirrored frame before padding: flag `0xF1`, echoed UOid, mangled
nonce words, original user data (spec §3, response frame). -/
def mirroredFrame0 (uoid n0 n1 n2 n3 n4 n5 n6 n7 : Nat) (userData : List Nat) :
    List Nat :=
  0xf1 :: (be4 (uoid % 2 ^ 32)
    ++ (be4 ((word4 n0 n1 n2 n3 + 0x01010101) % 2 ^ 32)
      ++ (be4 ((word4 n4 n5 n6 n7 + 0x01010101) % 2 ^ 32) ++ userData)))

/-- Ciphertext of the mirrored response frame. -/
def mirrorCipherText (E : List Nat → List Nat) (uoid n0 n1 n2 n3 n4 n5 n6 n7 : Nat)
    (userData : List Nat) : List Nat :=
  (cbcEncChain E (List.replicate 16 0)
    (chunks16 (pkcs7Pad (mirroredFrame0 uoid n0 n1 n2 n3 n4 n5 n6 n7 userData)))).flatten

theorem be4_length (n : Nat) : (be4 n).length = 4 := rfl

theorem be4_mem (n : Nat) : ∀ x ∈ be4 n, x < 256 := by
  simp [be4]
  omega

theorem be2_mem (n : Nat) : ∀ x ∈ be2 n, x < 256 := by
  simp [be2]
  omega

theorem pdFrame_mem (uoid : Nat) (nonce userData : List Nat)
    (hnb : ∀ x ∈ nonce, x < 256) (hub : ∀ x ∈ userData, x < 256) :
    ∀ x ∈ pdFrame uoid nonce userData, x < 256 := by
  intro x hx
  rw [pdFrame] at hx
  rcases List.mem_cons.mp hx with rfl | hx
  · omega
  · rcases List.mem_append.mp hx with h | h
    · rcases List.mem_append.mp h with h | h
      · exact be4_mem _ x h
      · exact hnb x h
    · exact hub x h

theorem mirroredFrame0_mem (uoid n0 n1 n2 n3 n4 n5 n6 n7 : Nat) (userData : List Nat)
    (hub : ∀ x ∈ userData, x < 256) :
    ∀ x ∈ mirroredFrame0 uoid n0 n1 n2 n3 n4 n5 n6 n7 userData, x < 256 := by
  intro x hx
  rw [mirroredFrame0] at hx
  rcases List.mem_cons.mp hx with rfl | hx
  · omega
  · rcases List.mem_append.mp hx with h | hx
    · exact be4_mem _ x h
    · rcases List.mem_append.mp hx with h | hx
      · exact be4_mem _ x h
      · rcases List.mem_append.mp hx with h | hx
        · exact be4_mem _ x h
        · exact hub x hx

theorem mirrored_pad_eq (uoid n0 n1 n2 n3 n4 n5 n6 n7 : Nat) (userData : List Nat) :
    mirrorFrame (pkcs7Pad (pdFrame uoid [n0, n1, n2, n3, n4, n5, n6, n7] userData)) =
      pkcs7Pad (mirroredFrame0 uoid n0 n1 n2 n3 n4 n5 n6 n7 userData) := by
  have hlen0 : (pdFrame uoid [n0, n1, n2, n3, n4, n5, n6, n7] userData).length =
      userData.length + 13 := by
    simp [pdFrame, be4]
  have hlen1 : (mirroredFrame0 uoid n0 n1 n2 n3 n4 n5 n6 n7 userData).length =
      userData.length + 13 := by
    simp [mirroredFrame0, be4]
  rw [pkcs7Pad_eq (pdFrame uoid [n0, n1, n2, n3, n4, n5, n6, n7] userData), hlen0,
    pkcs7Pad_eq (mirroredFrame0 uoid n0 n1 n2 n3 n4 n5 n6 n7 userData), hlen1]
  have hshape : pdFrame uoid [n0, n1, n2, n3, n4, n5, n6, n7] userData ++
      List.replicate (16 - (userData.length + 13) % 16) (16 - (userData.length + 13) % 16) =
      0x1f :: (uoid % 2 ^ 32 / 2 ^ 24 % 256) :: (uoid % 2 ^ 32 / 2 ^ 16 % 256) ::
        (uoid % 2 ^ 32 / 2 ^ 8 % 256) :: (uoid % 2 ^ 32 % 256) ::
        n0 :: n1 :: n2 :: n3 :: n4 :: n5 :: n6 :: n7 ::
        (userData ++ List.replicate (16 - (userData.length + 13) % 16)
          (16 - (userData.length + 13) % 16)) := by
    simp [pdFrame, be4]
  rw [hshape, mirrorFrame_eq]
  simp [mirroredFrame0, be4]

theorem loopback_on_built (E D M : List Nat → List Nat)
    (hE_len : ∀ b, b.length = 16 → (E b).length = 16)
    (hE_mem : ∀ b, b.length = 16 → ∀ x ∈ E b, x < 256)
    (hDE : ∀ b, b.length = 16 → (∀ x ∈ b, x < 256) → D (E b) = b)
    (hM_len : ∀ b, b.length = 16 → (M b).length = 16)
    (hM_mem : ∀ b, b.length = 16 → ∀ x ∈ M b, x < 256)
    (uoid n0 n1 n2 n3 n4 n5 n6 n7 : Nat)
    (hnb : ∀ x ∈ ([n0, n1, n2, n3, n4, n5, n6, n7] : List Nat), x < 256)
    (reqType : List Char)
    (plainData : List Nat) (hpl : plainData.length < 2 ^ 16)
    (hplb : ∀ x ∈ plainData, x < 256) (userData : List Nat)
    (hub : ∀ x ∈ userData, x < 256) :
    loopbackWire E D M reqType.length
      ("Packet0_".data ++ reqType ++ "_".data ++ sprintf04X plainData.length
        ++ hexOfBytes plainData
        ++ hexOfBytes (pdCipherText E uoid [n0, n1, n2, n3, n4, n5, n6, n7] userData)
        ++ hexOfBytes (cbcMac M (pdCipherText E uoid [n0, n1, n2, n3, n4, n5, n6, n7] userData))) =
      ⟨"9000".data, "ProcessData".data,
        hexOfBytes (be2 plainData.length ++ (plainData
          ++ (mirrorCipherText E uoid n0 n1 n2 n3 n4 n5 n6 n7 userData
            ++ cbcMac M (mirrorCipherText E uoid n0 n1 n2 n3 n4 n5 n6 n7 userData))))
          ++ "_OK".data⟩ := by
  have hpadmod := pkcs7Pad_length_mod (pdFrame uoid [n0, n1, n2, n3, n4, n5, n6, n7] userData)
  have hctlen : (pdCipherText E uoid [n0, n1, n2, n3, n4, n5, n6, n7] userData).length =
      (pkcs7Pad (pdFrame uoid [n0, n1, n2, n3, n4, n5, n6, n7] userData)).length := by
    rw [pdCipherText]
    exact enc_flatten_length E hE_len _ hpadmod
  have htaglen : (cbcMac M (pdCipherText E uoid [n0, n1, n2, n3, n4, n5, n6, n7] userData)).length
      = 16 := cbcMac_length M hM_len _
  have hA : ("Packet0_".data ++ (reqType ++ ("_".data ++ (sprintf04X plainData.length
      ++ (hexOfBytes plainData
        ++ (hexOfBytes (pdCipherText E uoid [n0, n1, n2, n3, n4, n5, n6, n7] userData)
          ++ hexOfBytes (cbcMac M (pdCipherText E uoid [n0, n1, n2, n3, n4, n5, n6, n7] userData)))))))).drop
        (8 + reqType.length + 1) =
      sprintf04X plainData.length ++ (hexOfBytes plainData
        ++ (hexOfBytes (pdCipherText E uoid [n0, n1, n2, n3, n4, n5, n6, n7] userData)
          ++ hexOfBytes (cbcMac M (pdCipherText E uoid [n0, n1, n2, n3, n4, n5, n6, n7] userData)))) := by
    rw [show 8 + reqType.length + 1 = 8 + (reqType.length + (1 + 0)) from by omega]
    rw [drop_add_exact "Packet0_".data _ 8 _ rfl,
      drop_add_exact reqType _ reqType.length _ rfl,
      drop_add_exact "_".data _ 1 0 rfl, List.drop_zero]
  have hB : (sprintf04X plainData.length ++ (hexOfBytes plainData
      ++ (hexOfBytes (pdCipherText E uoid [n0, n1, n2, n3, n4, n5, n6, n7] userData)
        ++ hexOfBytes (cbcMac M (pdCipherText E uoid [n0, n1, n2, n3, n4, n5, n6, n7] userData))))).take 4
      = sprintf04X plainData.length :=
    take_exact _ _ 4 (sprintf04X_length_of_lt _ hpl)
  have hC : hexVal (sprintf04X plainData.length) = plainData.length := hexVal_sprintf04X _
  have hD2 : (sprintf04X plainData.length ++ (hexOfBytes plainData
      ++ (hexOfBytes (pdCipherText E uoid [n0, n1, n2, n3, n4, n5, n6, n7] userData)
        ++ hexOfBytes (cbcMac M (pdCipherText E uoid [n0, n1, n2, n3, n4, n5, n6, n7] userData))))).drop 4
      = hexOfBytes plainData
        ++ (hexOfBytes (pdCipherText E uoid [n0, n1, n2, n3, n4, n5, n6, n7] userData)
          ++ hexOfBytes (cbcMac M (pdCipherText E uoid [n0, n1, n2, n3, n4, n5, n6, n7] userData))) :=
    drop_exact _ _ 4 (sprintf04X_length_of_lt _ hpl)
  have hE2 : (hexOfBytes plainData
      ++ (hexOfBytes (pdCipherText E uoid [n0, n1, n2, n3, n4, n5, n6, n7] userData)
        ++ hexOfBytes (cbcMac M (pdCipherText E uoid [n0, n1, n2, n3, n4, n5, n6, n7] userData)))).take
        (2 * plainData.length) = hexOfBytes plainData :=
    take_exact _ _ _ (length_hexOfBytes _)
  have hF : hexToBytes (hexOfBytes plainData) = plainData := hexToBytes_hexOfBytes _ hplb
  have hG : (hexOfBytes plainData
      ++ (hexOfBytes (pdCipherText E uoid [n0, n1, n2, n3, n4, n5, n6, n7] userData)
        ++ hexOfBytes (cbcMac M (pdCipherText E uoid [n0, n1, n2, n3, n4, n5, n6, n7] userData)))).drop
        (2 * plainData.length) =
      hexOfBytes (pdCipherText E uoid [n0, n1, n2, n3, n4, n5, n6, n7] userData)
        ++ hexOfBytes (cbcMac M (pdCipherText E uoid [n0, n1, n2, n3, n4, n5, n6, n7] userData)) :=
    drop_exact _ _ _ (length_hexOfBytes _)
  have hctmem : ∀ x ∈ pdCipherText E uoid [n0, n1, n2, n3, n4, n5, n6, n7] userData, x < 256 := by
    rw [pdCipherText]
    exact cbcEncChain_mem E hE_len hE_mem (List.replicate 16 0) (by simp) _
      (chunks16_blocks _ hpadmod)
  have htagmem : ∀ x ∈ cbcMac M (pdCipherText E uoid [n0, n1, n2, n3, n4, n5, n6, n7] userData),
      x < 256 := cbcMac_mem M hM_len hM_mem _
  have hH : hexToBytes (hexOfBytes (pdCipherText E uoid [n0, n1, n2, n3, n4, n5, n6, n7] userData)
      ++ hexOfBytes (cbcMac M (pdCipherText E uoid [n0, n1, n2, n3, n4, n5, n6, n7] userData))) =
      pdCipherText E uoid [n0, n1, n2, n3, n4, n5, n6, n7] userData
        ++ cbcMac M (pdCipherText E uoid [n0, n1, n2, n3, n4, n5, n6, n7] userData) := by
    rw [← hexOfBytes_append]
    refine hexToBytes_hexOfBytes _ (fun b hb => ?_)
    rcases List.mem_append.mp hb with hb | hb
    · exact hctmem b hb
    · exact htagmem b hb
  have hI : (pdCipherText E uoid [n0, n1, n2, n3, n4, n5, n6, n7] userData
      ++ cbcMac M (pdCipherText E uoid [n0, n1, n2, n3, n4, n5, n6, n7] userData)).take
        ((pdCipherText E uoid [n0, n1, n2, n3, n4, n5, n6, n7] userData
          ++ cbcMac M (pdCipherText E uoid [n0, n1, n2, n3, n4, n5, n6, n7] userData)).length - 16) =
      pdCipherText E uoid [n0, n1, n2, n3, n4, n5, n6, n7] userData := by
    refine take_exact _ _ _ ?_
    simp [htaglen]
  have hJ : (cbcDecChain D (List.replicate 16 0)
      (chunks16 (pdCipherText E uoid [n0, n1, n2, n3, n4, n5, n6, n7] userData))).flatten =
      pkcs7Pad (pdFrame uoid [n0, n1, n2, n3, n4, n5, n6, n7] userData) := by
    rw [pdCipherText]
    exact dec_of_enc E D hE_len hE_mem hDE _ hpadmod
      (pkcs7Pad_mem _ (pdFrame_mem uoid _ userData hnb hub))
  have hK := mirrored_pad_eq uoid n0 n1 n2 n3 n4 n5 n6 n7 userData
  rw [loopbackWire]
  simp only [List.append_assoc]
  simp only [hA, hB, hC, hD2, hE2, hF, hG, hH, hI, hJ, hK]
  rw [mirrorCipherText]

set_option maxHeartbeats 2000000 in
theorem parse_on_mirrored (E D M : List Nat → List Nat)
    (hE_len : ∀ b, b.length = 16 → (E b).length = 16)
    (hE_mem : ∀ b, b.length = 16 → ∀ x ∈ E b, x < 256)
    (hDE : ∀ b, b.length = 16 → (∀ x ∈ b, x < 256) → D (E b) = b)
    (hM_len : ∀ b, b.length = 16 → (M b).length = 16)
    (hM_mem : ∀ b, b.length = 16 → ∀ x ∈ M b, x < 256)
    (uoid n0 n1 n2 n3 n4 n5 n6 n7 : Nat)
    (hb : ∀ x ∈ ([n0, n1, n2, n3, n4, n5, n6, n7] : List Nat), x < 256)
    (plainData : List Nat) (hpl : plainData.length < 2 ^ 16)
    (hplb : ∀ x ∈ plainData, x < 256) (userData : List Nat)
    (hub : ∀ x ∈ userData, x < 256) :
    ∃ r, processDataParse D M ⟨"9000".data, "ProcessData".data,
        hexOfBytes (be2 plainData.length ++ (plainData
          ++ (mirrorCipherText E uoid n0 n1 n2 n3 n4 n5 n6 n7 userData
            ++ cbcMac M (mirrorCipherText E uoid n0 n1 n2 n3 n4 n5 n6 n7 userData))))
          ++ "_OK".data⟩ = .ok r ∧
      r.protectedData = userData ∧ r.nonce = [n0, n1, n2, n3, n4, n5, n6, n7] ∧
      r.statusCode = 0x9000 ∧ r.plainData = plainData := by
  have hmf_padmod := pkcs7Pad_length_mod (mirroredFrame0 uoid n0 n1 n2 n3 n4 n5 n6 n7 userData)
  have hct2len : (mirrorCipherText E uoid n0 n1 n2 n3 n4 n5 n6 n7 userData).length =
      (pkcs7Pad (mirroredFrame0 uoid n0 n1 n2 n3 n4 n5 n6 n7 userData)).length := by
    rw [mirrorCipherText]
    exact enc_flatten_length E hE_len _ hmf_padmod
  have hct2mod : (mirrorCipherText E uoid n0 n1 n2 n3 n4 n5 n6 n7 userData).length % 16 = 0 := by
    rw [hct2len]
    exact hmf_padmod
  have htag2len : (cbcMac M (mirrorCipherText E uoid n0 n1 n2 n3 n4 n5 n6 n7 userData)).length
      = 16 := cbcMac_length M hM_len _
  have hct2mem : ∀ x ∈ mirrorCipherText E uoid n0 n1 n2 n3 n4 n5 n6 n7 userData, x < 256 := by
    rw [mirrorCipherText]
    exact cbcEncChain_mem E hE_len hE_mem (List.replicate 16 0) (by simp) _
      (chunks16_blocks _ hmf_padmod)
  have htag2mem : ∀ x ∈ cbcMac M (mirrorCipherText E uoid n0 n1 n2 n3 n4 n5 n6 n7 userData),
      x < 256 := cbcMac_mem M hM_len hM_mem _
  have hS1 : ¬(("9000".data : List Char) = [] ∨ ("ProcessData".data : List Char) = []) := by
    decide
  have hsc : hexVal "9000".data = 36864 := rfl
  have hOK : ("_OK".data : List Char) = '_' :: "OK".data := rfl
  have hhead : headUptoUnderscore (hexOfBytes (be2 plainData.length ++ (plainData
      ++ (mirrorCipherText E uoid n0 n1 n2 n3 n4 n5 n6 n7 userData
        ++ cbcMac M (mirrorCipherText E uoid n0 n1 n2 n3 n4 n5 n6 n7 userData))))
      ++ '_' :: "OK".data) = hexOfBytes (be2 plainData.length ++ (plainData
      ++ (mirrorCipherText E uoid n0 n1 n2 n3 n4 n5 n6 n7 userData
        ++ cbcMac M (mirrorCipherText E uoid n0 n1 n2 n3 n4 n5 n6 n7 userData)))) :=
    headUptoUnderscore_append _ _ (mem_hexOfBytes_ne_underscore _)
  have hdecBB : hexToBytes (hexOfBytes (be2 plainData.length ++ (plainData
      ++ (mirrorCipherText E uoid n0 n1 n2 n3 n4 n5 n6 n7 userData
        ++ cbcMac M (mirrorCipherText E uoid n0 n1 n2 n3 n4 n5 n6 n7 userData))))) =
      be2 plainData.length ++ (plainData
      ++ (mirrorCipherText E uoid n0 n1 n2 n3 n4 n5 n6 n7 userData
        ++ cbcMac M (mirrorCipherText E uoid n0 n1 n2 n3 n4 n5 n6 n7 userData))) := by
    refine hexToBytes_hexOfBytes _ (fun b hbm => ?_)
    rcases List.mem_append.mp hbm with h | h
    · exact be2_mem _ b h
    · rcases List.mem_append.mp h with h | h
      · exact hplb b h
      · rcases List.mem_append.mp h with h | h
        · exact hct2mem b h
        · exact htag2mem b h
  have hg0 : (be2 plainData.length ++ (plainData
      ++ (mirrorCipherText E uoid n0 n1 n2 n3 n4 n5 n6 n7 userData
        ++ cbcMac M (mirrorCipherText E uoid n0 n1 n2 n3 n4 n5 n6 n7 userData)))).get? 0 =
      some (plainData.length / 256 % 256) := rfl
  have hg1 : (be2 plainData.length ++ (plainData
      ++ (mirrorCipherText E uoid n0 n1 n2 n3 n4 n5 n6 n7 userData
        ++ cbcMac M (mirrorCipherText E uoid n0 n1 n2 n3 n4 n5 n6 n7 userData)))).get? 1 =
      some (plainData.length % 256) := rfl
  have hplen : 256 * (plainData.length / 256 % 256) + plainData.length % 256 =
      plainData.length := by omega
  have hplain : ((be2 plainData.length ++ (plainData
      ++ (mirrorCipherText E uoid n0 n1 n2 n3 n4 n5 n6 n7 userData
        ++ cbcMac M (mirrorCipherText E uoid n0 n1 n2 n3 n4 n5 n6 n7 userData)))).drop 2).take
        plainData.length = plainData := by
    rw [drop_exact (be2 plainData.length) _ 2 rfl, take_exact plainData _ _ rfl]
  have hprot : (be2 plainData.length ++ (plainData
      ++ (mirrorCipherText E uoid n0 n1 n2 n3 n4 n5 n6 n7 userData
        ++ cbcMac M (mirrorCipherText E uoid n0 n1 n2 n3 n4 n5 n6 n7 userData)))).drop
        (2 + plainData.length) =
      mirrorCipherText E uoid n0 n1 n2 n3 n4 n5 n6 n7 userData
        ++ cbcMac M (mirrorCipherText E uoid n0 n1 n2 n3 n4 n5 n6 n7 userData) := by
    rw [drop_add_exact (be2 plainData.length) _ 2 _ rfl, drop_exact plainData _ _ rfl]
  have hofflen : (mirrorCipherText E uoid n0 n1 n2 n3 n4 n5 n6 n7 userData
      ++ cbcMac M (mirrorCipherText E uoid n0 n1 n2 n3 n4 n5 n6 n7 userData)).length - 16 =
      (mirrorCipherText E uoid n0 n1 n2 n3 n4 n5 n6 n7 userData).length := by
    simp [htag2len]
  have htomac : (mirrorCipherText E uoid n0 n1 n2 n3 n4 n5 n6 n7 userData
      ++ cbcMac M (mirrorCipherText E uoid n0 n1 n2 n3 n4 n5 n6 n7 userData)).take
        (mirrorCipherText E uoid n0 n1 n2 n3 n4 n5 n6 n7 userData).length =
      mirrorCipherText E uoid n0 n1 n2 n3 n4 n5 n6 n7 userData := take_exact _ _ _ rfl
  have hcondmac : ¬((8 * (mirrorCipherText E uoid n0 n1 n2 n3 n4 n5 n6 n7 userData).length) % 128
      ≠ 0) := by omega
  have hmacslice : (mirrorCipherText E uoid n0 n1 n2 n3 n4 n5 n6 n7 userData
      ++ cbcMac M (mirrorCipherText E uoid n0 n1 n2 n3 n4 n5 n6 n7 userData)).drop
        (mirrorCipherText E uoid n0 n1 n2 n3 n4 n5 n6 n7 userData).length =
      cbcMac M (mirrorCipherText E uoid n0 n1 n2 n3 n4 n5 n6 n7 userData) := drop_exact _ _ _ rfl
  have hcondmaclen : ¬((cbcMac M (mirrorCipherText E uoid n0 n1 n2 n3 n4 n5 n6 n7 userData)).length
      ≠ 16) := fun h => h htag2len
  have hdecrypt : cbcDecryptPkcs7 D (List.replicate 16 0)
      (mirrorCipherText E uoid n0 n1 n2 n3 n4 n5 n6 n7 userData) =
      .ok (mirroredFrame0 uoid n0 n1 n2 n3 n4 n5 n6 n7 userData) := by
    rw [mirrorCipherText]
    exact cbcDecryptPkcs7_enc_pad E D hE_len hE_mem hDE _
      (mirroredFrame0_mem uoid n0 n1 n2 n3 n4 n5 n6 n7 userData hub)
  have hflag : (mirroredFrame0 uoid n0 n1 n2 n3 n4 n5 n6 n7 userData).get? 0 = some 0xf1 := rfl
  have hm58 : ((mirroredFrame0 uoid n0 n1 n2 n3 n4 n5 n6 n7 userData).drop 5).take 8 =
      be4 ((word4 n0 n1 n2 n3 + 0x01010101) % 2 ^ 32)
        ++ be4 ((word4 n4 n5 n6 n7 + 0x01010101) % 2 ^ 32) := by
    rw [mirroredFrame0, show (5 : Nat) = 4 + 1 from rfl, List.drop_succ_cons,
      drop_exact (be4 (uoid % 2 ^ 32)) _ 4 rfl, show (8 : Nat) = 4 + 4 from rfl,
      take_add_exact (be4 ((word4 n0 n1 n2 n3 + 0x01010101) % 2 ^ 32)) _ 4 4 rfl,
      take_exact (be4 ((word4 n4 n5 n6 n7 + 0x01010101) % 2 ^ 32)) _ 4 rfl]
  have hdem : demangleNonceBytes (be4 ((word4 n0 n1 n2 n3 + 0x01010101) % 2 ^ 32)
      ++ be4 ((word4 n4 n5 n6 n7 + 0x01010101) % 2 ^ 32)) =
      .ok [n0, n1, n2, n3, n4, n5, n6, n7] := by
    rw [demangleNonceBytes_mangled _ _
      (word4_lt _ _ _ _ (hb n0 (by simp)) (hb n1 (by simp)) (hb n2 (by simp)) (hb n3 (by simp)))
      (word4_lt _ _ _ _ (hb n4 (by simp)) (hb n5 (by simp)) (hb n6 (by simp)) (hb n7 (by simp))),
      be4_word4 _ _ _ _ (hb n0 (by simp)) (hb n1 (by simp)) (hb n2 (by simp)) (hb n3 (by simp)),
      be4_word4 _ _ _ _ (hb n4 (by simp)) (hb n5 (by simp)) (hb n6 (by simp)) (hb n7 (by simp))]
    rfl
  have hprot13 : (mirroredFrame0 uoid n0 n1 n2 n3 n4 n5 n6 n7 userData).drop 13 = userData := by
    rw [mirroredFrame0, show (13 : Nat) = 12 + 1 from rfl, List.drop_succ_cons,
      show (12 : Nat) = 4 + 8 from rfl, drop_add_exact (be4 (uoid % 2 ^ 32)) _ 4 8 rfl,
      show (8 : Nat) = 4 + 4 from rfl,
      drop_add_exact (be4 ((word4 n0 n1 n2 n3 + 0x01010101) % 2 ^ 32)) _ 4 4 rfl,
      drop_exact (be4 ((word4 n4 n5 n6 n7 + 0x01010101) % 2 ^ 32)) _ 4 rfl]
  rw [processDataParse]
  rw [if_neg hS1]
  simp only [hsc]
  rw [if_neg (by omega)]
  simp only [hOK, hhead, hdecBB, hg0, hg1, Option.getD_some, hplen, hplain, hprot, hofflen,
    htomac, hmacslice]
  rw [if_neg hcondmac, if_neg hcondmaclen, if_neg (fun h => h rfl), if_neg hcondmac]
  simp only [hdecrypt, hflag, Option.getD_some]
  rw [if_neg (fun h => h rfl)]
  simp only [hm58, hdem, hprot13]
  exact ⟨_, rfl, rfl, rfl, rfl, rfl⟩

/-- C1: for every pair of 256-bit keys (abstracted as the block ciphers
`E`, `D`, `M` they key), every 32-bit UOid, every 8-byte nonce, every
`plainData` shorter than `2^16` bytes and every `userData`, building a
request with `processDataRequestBodyBuilder.build` and feeding it through
a loopback that replaces the `0x1F` flag byte with `0xF1` and adds
`0x01010101` to each nonce word, then parsing the mirrored response with
`processDataResponseParser.parse`, yields the original `userData` as the
`protectedData` and a demangled nonce equal to the original request
nonce. -/
theorem c1_processdata_roundtrip (E D M : List Nat → List Nat)
    (hE_len : ∀ b, b.length = 16 → (E b).length = 16)
    (hE_mem : ∀ b, b.length = 16 → ∀ x ∈ E b, x < 256)
    (hDE : ∀ b, b.length = 16 → (∀ x ∈ b, x < 256) → D (E b) = b)
    (hM_len : ∀ b, b.length = 16 → (M b).length = 16)
    (hM_mem : ∀ b, b.length = 16 → ∀ x ∈ M b, x < 256)
    (uoid : Nat) (huoid : uoid < 2 ^ 32)
    (nonce : List Nat) (hn : nonce.length = 8) (hnb : ∀ x ∈ nonce, x < 256)
    (reqType : List Char) (plainData : List Nat) (hpl : plainData.length < 2 ^ 16)
    (hplb : ∀ x ∈ plainData, x < 256) (userData : List Nat)
    (hub : ∀ x ∈ userData, x < 256) (wire : List Char)
    (hw : processDataBuild E M uoid nonce reqType plainData userData = .ok wire) :
    ∃ r, processDataParse D M (loopbackWire E D M reqType.length wire) = .ok r ∧
      r.protectedData = userData ∧ r.nonce = nonce := by
  obtain ⟨n0, n1, n2, n3, n4, n5, n6, n7, rfl⟩ : ∃ a0 a1 a2 a3 a4 a5 a6 a7,
      nonce = [a0, a1, a2, a3, a4, a5, a6, a7] := by
    rcases nonce with _ | ⟨a0, _ | ⟨a1, _ | ⟨a2, _ | ⟨a3, _ | ⟨a4, _ | ⟨a5,
      _ | ⟨a6, _ | ⟨a7, _ | ⟨a8, t⟩⟩⟩⟩⟩⟩⟩⟩⟩ <;> simp at hn
    exact ⟨a0, a1, a2, a3, a4, a5, a6, a7, rfl⟩
  rw [processDataBuild_eq] at hw
  injection hw with hw2
  subst hw2
  rw [loopback_on_built E D M hE_len hE_mem hDE hM_len hM_mem uoid n0 n1 n2 n3 n4 n5 n6 n7
    hnb reqType plainData hpl hplb userData hub]
  obtain ⟨r, h1, h2, h3, _, _⟩ := parse_on_mirrored E D M hE_len hE_mem hDE hM_len hM_mem
    uoid n0 n1 n2 n3 n4 n5 n6 n7 hnb plainData hpl hplb userData hub
  exact ⟨r, h1, h2, h3⟩

/-- C2: `processDataRequestBodyBuilder.build` returns the wire string
`"Packet0_" ‖ reqType ‖ "_" ‖ plainLen(4 hex digits) ‖ hex(plainData) ‖
hex(CT) ‖ hex(TAG)` where `CT` is the zero-IV unpadded CBC encryption
(block cipher `E`, standing for AES-256 under `encKey`) of the
PKCS#7-padded frame `0x1F ‖ UOid(4B BE) ‖ nonce(8B) ‖ userData`, and
`TAG` is the zero-IV CBC-MAC (block cipher `M`, standing for AES-256
under `macKey`) of `CT`. -/
theorem c2_processdata_build_format (E M : List Nat → List Nat)
    (uoid : Nat) (huoid : uoid < 2 ^ 32) (nonce : List Nat) (hn : nonce.length = 8)
    (reqType : List Char) (plainData userData : List Nat)
    (hpl : plainData.length ≤ 0xffff) :
    processDataBuild E M uoid nonce reqType plainData userData =
      .ok ("Packet0_".data ++ reqType ++ "_".data ++ sprintf04X plainData.length
        ++ hexOfBytes plainData
        ++ hexOfBytes ((cbcEncChain E (List.replicate 16 0)
            (chunks16 (pkcs7Pad (0x1f :: (be4 uoid ++ nonce ++ userData))))).flatten)
        ++ hexOfBytes (cbcMac M ((cbcEncChain E (List.replicate 16 0)
            (chunks16 (pkcs7Pad (0x1f :: (be4 uoid ++ nonce ++ userData))))).flatten)))
      ∧ (sprintf04X plainData.length).length = 4
      ∧ hexVal (sprintf04X plainData.length) = plainData.length := by
  refine ⟨?_, sprintf04X_length_of_lt _ (by omega), hexVal_sprintf04X _⟩
  rw [processDataBuild_eq]
  simp only [pdCipherText, pdFrame, Nat.mod_eq_of_lt huoid]

set_option maxHeartbeats 2000000 in
/-- C3: `processDataResponseParser.parse` verifies the MAC before any
decryption.  First conjunct: on a response whose trailing 16-byte TAG
differs from the CBC-MAC of CT, parse raises the corrupt error thrown at
the MAC comparison, and its result does not depend on the block
decryption function at all (decryption is never performed).  Second
conjunct: whenever parse succeeds, the stored MAC equals the recomputed
MAC — decryption only happens after the comparison succeeded. -/
theorem c3_mac_verified_before_decrypt :
    (∀ (D1 D2 M : List Nat → List Nat) (fn suffix : List Char)
      (plain ct tag : List Nat),
      (∀ x ∈ plain, x < 256) → (∀ x ∈ ct, x < 256) → (∀ x ∈ tag, x < 256) →
      plain.length < 2 ^ 16 → ct.length % 16 = 0 → tag.length = 16 → fn ≠ [] →
      tag ≠ cbcMac M ct →
      processDataParse D1 M ⟨"9000".data, fn,
          hexOfBytes (be2 plain.length ++ (plain ++ (ct ++ tag))) ++ '_' :: suffix⟩ =
        .error (.corrupt "Padding is not valid") ∧
      processDataParse D1 M ⟨"9000".data, fn,
          hexOfBytes (be2 plain.length ++ (plain ++ (ct ++ tag))) ++ '_' :: suffix⟩ =
        processDataParse D2 M ⟨"9000".data, fn,
          hexOfBytes (be2 plain.length ++ (plain ++ (ct ++ tag))) ++ '_' :: suffix⟩) ∧
    (∀ (D M : List Nat → List Nat) (data : ResponseData) (r : ProcessDataResp),
      processDataParse D M data = .ok r → r.mac = r.computedMac) := by
  constructor
  · intro D1 D2 M fn suffix plain ct tag hplb hctb htagb hpl hctmod htag16 hfn hne
    have key : ∀ D' : List Nat → List Nat, processDataParse D' M ⟨"9000".data, fn,
        hexOfBytes (be2 plain.length ++ (plain ++ (ct ++ tag))) ++ '_' :: suffix⟩ =
        .error (.corrupt "Padding is not valid") := by
      intro D'
      have hS1 : ¬(("9000".data : List Char) = [] ∨ fn = []) := by
        rintro (h | h)
        · exact absurd h (by decide)
        · exact hfn h
      have hsc : hexVal "9000".data = 36864 := rfl
      have hhead : headUptoUnderscore (hexOfBytes (be2 plain.length
          ++ (plain ++ (ct ++ tag))) ++ '_' :: suffix) =
          hexOfBytes (be2 plain.length ++ (plain ++ (ct ++ tag))) :=
        headUptoUnderscore_append _ _ (mem_hexOfBytes_ne_underscore _)
      have hdecBB : hexToBytes (hexOfBytes (be2 plain.length ++ (plain ++ (ct ++ tag)))) =
          be2 plain.length ++ (plain ++ (ct ++ tag)) := by
        refine hexToBytes_hexOfBytes _ (fun b hbm => ?_)
        rcases List.mem_append.mp hbm with h | h
        · exact be2_mem _ b h
        · rcases List.mem_append.mp h with h | h
          · exact hplb b h
          · rcases List.mem_append.mp h with h | h
            · exact hctb b h
            · exact htagb b h
      have hg0 : (be2 plain.length ++ (plain ++ (ct ++ tag))).get? 0 =
          some (plain.length / 256 % 256) := rfl
      have hg1 : (be2 plain.length ++ (plain ++ (ct ++ tag))).get? 1 =
          some (plain.length % 256) := rfl
      have hplen : 256 * (plain.length / 256 % 256) + plain.length % 256 = plain.length := by
        omega
      have hplain : ((be2 plain.length ++ (plain ++ (ct ++ tag))).drop 2).take plain.length
          = plain := by
        rw [drop_exact (be2 plain.length) _ 2 rfl, take_exact plain _ _ rfl]
      have hprot : (be2 plain.length ++ (plain ++ (ct ++ tag))).drop (2 + plain.length) =
          ct ++ tag := by
        rw [drop_add_exact (be2 plain.length) _ 2 _ rfl, drop_exact plain _ _ rfl]
      have hofflen : (ct ++ tag).length - 16 = ct.length := by simp [htag16]
      have htomac : (ct ++ tag).take ct.length = ct := take_exact _ _ _ rfl
      have hcondmac : ¬((8 * ct.length) % 128 ≠ 0) := by omega
      have hmacslice : (ct ++ tag).drop ct.length = tag := drop_exact _ _ _ rfl
      have hcondlen : ¬(tag.length ≠ 16) := fun h => h htag16
      rw [processDataParse, if_neg hS1]
      simp only [hsc]
      rw [if_neg (by omega)]
      simp only [hhead, hdecBB, hg0, hg1, Option.getD_some, hplen, hplain, hprot, hofflen,
        htomac, hmacslice]
      rw [if_neg hcondmac, if_neg hcondlen, if_pos hne]
    exact ⟨key D1, (key D1).trans (key D2).symm⟩
  · intro D M data r hok
    rw [processDataParse] at hok
    simp only [] at hok
    repeat' split at hok
    all_goals cases hok
    all_goals first
      | rfl
      | exact not_ne_iff.mp (by assumption)

/-- C4: `eb.padding.pkcs7.pad` appends `k` bytes of value `k` with
`k = 16 − (len mod 16)` (a full 16-byte block when the length is already a
multiple of 16); `unpad`, on a block-aligned nonempty byte string, reads
the last byte `k`, strips the last `k` bytes when `1 ≤ k ≤ 16` and they
all equal `k`, and raises the corrupt error otherwise; and
`unpad (pad x) = x` for every byte string `x`. -/
theorem c4_pkcs7_pad_unpad :
    (∀ x : List Nat, pkcs7Pad x =
      x ++ List.replicate (16 - x.length % 16) (16 - x.length % 16)) ∧
    (∀ x : List Nat, x.length % 16 = 0 → pkcs7Pad x = x ++ List.replicate 16 16) ∧
    (∀ a : List Nat, a.length % 16 = 0 → a ≠ [] → (∀ b ∈ a, b < 256) →
      pkcs7Unpad a =
        if 1 ≤ a.getLast?.getD 0 ∧ a.getLast?.getD 0 ≤ 16 ∧
            a.drop (a.length - a.getLast?.getD 0) =
              List.replicate (a.getLast?.getD 0) (a.getLast?.getD 0)
          then .ok (a.take (a.length - a.getLast?.getD 0))
          else .error (.corrupt "pkcs#5 padding corrupt")) ∧
    (∀ x : List Nat, pkcs7Unpad (pkcs7Pad x) = .ok x) := by
  refine ⟨fun x => pkcs7Pad_eq x, fun x hx => ?_, fun a hmod hne hb => ?_,
    fun x => pkcs7Unpad_pkcs7Pad x⟩
  · rw [pkcs7Pad_eq, hx]
  · have hk : a.getLast?.getD 0 % 256 = a.getLast?.getD 0 := by
      rcases hl : a.getLast? with _ | v
      · simp
      · have hv : v ∈ a := by
          rcases List.mem_getLast?_eq_getLast (show v ∈ a.getLast? by simp [hl])
            with ⟨hne2, rfl⟩
          exact List.getLast_mem hne2
        simpa using Nat.mod_eq_of_lt (hb v hv)
    rw [pkcs7Unpad, if_neg (by
      push_neg
      exact ⟨hmod, fun h => hne (List.eq_nil_of_length_eq_zero h)⟩)]
    simp only [hk]
    by_cases h1 : a.getLast?.getD 0 = 0 ∨ a.getLast?.getD 0 > 16
    · rw [if_pos h1, if_neg (by omega)]
    · rw [if_neg h1]
      by_cases h2 : a.drop (a.length - a.getLast?.getD 0) =
          List.replicate (a.getLast?.getD 0) (a.getLast?.getD 0)
      · rw [if_neg (fun hh => hh h2), if_pos ⟨by omega, by omega, h2⟩]
      · rw [if_pos h2, if_neg (fun hh => h2 hh.2.2)]

/-- C5: the nonce-demangling tail path is broken.  The claim states
`demangle(mangle(n)) = n` for every nonce of byte length `1..16`; for the
one-byte nonce `0x02` the code returns the zero byte instead: the
`(word − sub) >>> rbl` shift moves the demangled tail out of the high
bits and the final `clamp` masks it away.  The spec's own 56-bit example
(`[0x01010101, 0x01010100]`, all-zero result) does hold, and byte lengths
that are multiples of 4 demangle correctly, which is recorded here
alongside the failing evaluation. -/
theorem c5_demangle_mangle_one_byte_fails :
    mangleNonceW (wordsOfBytes [0x02]) = [mkPart 8 0x03000000] ∧
    demangleNonceW (mangleNonceW (wordsOfBytes [0x02])) = .ok [mkPart 8 0] ∧
    (demangleNonceW (mangleNonceW (wordsOfBytes [0x02]))).map bytesOfWords =
      .ok [0x00] ∧
    bytesOfWords (wordsOfBytes [0x02]) = [0x02] ∧
    demangleNonceW [0x01010101, mkPart 24 0x01010100] = .ok [0, mkPart 24 0] := by
  refine ⟨by decide, rfl, rfl, by decide, rfl⟩

/-- C6 (amended): `processDataRequestBodyBuilder.build` does not fail when
`plainData` exceeds `0xFFFF` bytes; it still returns the wire string, with
the `%04X` length field printed in full — more than four hex digits — so
the 16-bit `plainLen` field is overrun rather than rejected. -/
theorem c6_build_oversized_plaindata (E M : List Nat → List Nat)
    (uoid : Nat) (nonce : List Nat) (reqType : List Char)
    (plainData userData : List Nat) (h : 0xffff < plainData.length) :
    processDataBuild E M uoid nonce reqType plainData userData =
      .ok ("Packet0_".data ++ reqType ++ "_".data ++ sprintf04X plainData.length
        ++ hexOfBytes plainData ++ hexOfBytes (pdCipherText E uoid nonce userData)
        ++ hexOfBytes (cbcMac M (pdCipherText E uoid nonce userData)))
      ∧ 4 < (sprintf04X plainData.length).length :=
  ⟨processDataBuild_eq E M uoid nonce reqType plainData userData,
    sprintf04X_length_of_ge _ (by omega)⟩

/-- C6 counterexample: with a 65536-byte `plainData` the builder returns a
wire string (`Except.ok`) instead of raising an error as the claim
states. -/
theorem c6_counterexample_build_succeeds :
    (processDataBuild id (fun _ => List.replicate 16 0) 0 (List.replicate 8 0)
      "PLAINAES".data (List.replicate 65536 0) []).isOk = true := by
  rfl

/-- Shared helper: `eb.padding.pkcs15.pad` succeeds exactly when the data
leaves a non-negative padding string, with the `00 ‖ BT ‖ PS ‖ 00 ‖ D`
layout. -/
theorem pkcs15Pad_ok (rand : Nat → Nat) (a : List Nat) (blockLength bt : Nat)
    (hne : a ≠ []) (hbt : bt = 0 ∨ bt = 1 ∨ bt = 2)
    (hfit : a.length + 3 ≤ blockLength) :
    pkcs15Pad rand a blockLength bt =
      .ok (0 :: bt :: (List.range (blockLength - 3 - a.length)).map
        (fun i => if bt = 1 then 0xff else if bt = 2 then rand i else 0) ++ 0 :: a) := by
  rw [pkcs15Pad, if_neg (fun h => hne (List.eq_nil_of_length_eq_zero h)),
    if_neg (by rcases hbt with rfl | rfl | rfl <;> simp), if_neg (by omega)]

/-- C7 (amended): `eb.padding.pkcs15.pad(data, blockLen, BT)` produces the
layout `0x00 ‖ BT ‖ PS ‖ 0x00 ‖ data` with `|PS| = blockLen − 3 − |data|`
for every nonempty data and `BT ∈ {0,1,2}` whenever `|data| + 3 ≤
blockLen`; only inputs with `|data| + 3 > blockLen` are rejected — no
minimum padding-string length of 8 is enforced. -/
theorem c7_pkcs15_layout (rand : Nat → Nat) (a : List Nat) (blockLength bt : Nat)
    (hne : a ≠ []) (hbt : bt = 0 ∨ bt = 1 ∨ bt = 2) :
    (a.length + 3 ≤ blockLength →
      ∃ ps, pkcs15Pad rand a blockLength bt = .ok (0 :: bt :: ps ++ 0 :: a) ∧
        ps.length = blockLength - 3 - a.length ∧
        (∀ i, ps.get? i = if i < ps.length then
          some (if bt = 1 then 0xff else if bt = 2 then rand i else 0) else none)) ∧
    (blockLength < a.length + 3 →
      pkcs15Pad rand a blockLength bt =
        .error (.corrupt "data to pad is too big for the padding block length")) := by
  constructor
  · intro hfit
    refine ⟨_, pkcs15Pad_ok rand a blockLength bt hne hbt hfit, by simp, fun i => ?_⟩
    by_cases h : i < ((List.range (blockLength - 3 - a.length)).map
        (fun i => if bt = 1 then 0xff else if bt = 2 then rand i else 0)).length
    · rw [if_pos h]
      have hi : i < blockLength - 3 - a.length := by simpa using h
      rw [List.get?_map, List.get?_range hi]
      rfl
    · rw [if_neg h]
      exact List.get?_eq_none.mpr (by omega)
  · intro hover
    rw [pkcs15Pad, if_neg (fun h => hne (List.eq_nil_of_length_eq_zero h)),
      if_neg (by rcases hbt with rfl | rfl | rfl <;> simp), if_pos (by omega)]

/-- C7 counterexample: a 13-byte input padded into a 16-byte block is
accepted with an empty padding string (`|PS| = 0 < 8`), where the claim
says inputs leaving fewer than 8 padding bytes are rejected. -/
theorem c7_counterexample_short_ps_accepted :
    pkcs15Pad (fun _ => 0xAB) (List.replicate 13 0x11) 16 1 =
      .ok (0 :: 1 :: 0 :: List.replicate 13 0x11) ∧ 16 - 3 - 13 < 8 := by
  refine ⟨rfl, by decide⟩

/-- Shared frame lemma for `eb.misc.replacePart`: a length-preserving
replacement leaves the prefix before `offsetStartBit` and the suffix from
`offsetEndBit` untouched. -/
theorem replacePart_frame (buffer r : List Bool) (s e : Nat)
    (hse : s ≤ e) (heb : e ≤ buffer.length) (hr : r.length = e - s) :
    (replacePart buffer s e r).length = buffer.length ∧
    (replacePart buffer s e r).take s = buffer.take s ∧
    (replacePart buffer s e r).drop e = buffer.drop e := by
  have hts : (buffer.take s).length = s := by rw [List.length_take]; omega
  refine ⟨?_, ?_, ?_⟩
  · rw [replacePart]
    simp only [List.length_append, List.length_take, List.length_drop]
    omega
  · rw [replacePart, List.append_assoc, List.take_append_eq_append_take, hts,
      Nat.sub_self, List.take_zero, List.append_nil, List.take_take,
      Nat.min_self]
  · rw [replacePart]
    have h2 : (buffer.take s ++ r).length = e := by
      rw [List.length_append, hts]; omega
    calc (buffer.take s ++ r ++ buffer.drop e).drop e
        = (buffer.take s ++ r ++ buffer.drop e).drop (buffer.take s ++ r).length := by
          rw [h2]
      _ = buffer.drop e := List.drop_left _ _

/-- C10: `eb.misc.replacePart` and `eb.misc.transformPart` (the primitive
splice operations used by `templateFiller.build` on the template blob)
preserve the buffer outside `[offsetStartBit, offsetEndBit)`: when the
replacement (resp. transformed slice) has the length of the replaced
range, the result keeps the buffer's length, its prefix before
`offsetStartBit`, and its suffix from `offsetEndBit` onward. -/
theorem c10_replace_transform_frame :
    (∀ (buffer r : List Bool) (s e : Nat), s ≤ e → e ≤ buffer.length →
      r.length = e - s →
      (replacePart buffer s e r).length = buffer.length ∧
      (replacePart buffer s e r).take s = buffer.take s ∧
      (replacePart buffer s e r).drop e = buffer.drop e) ∧
    (∀ (buffer : List Bool) (s e : Nat) (f : List Bool → List Bool),
      s ≤ e → e ≤ buffer.length →
      (f ((buffer.drop s).take (e - s))).length = e - s →
      (transformPart buffer s e f).length = buffer.length ∧
      (transformPart buffer s e f).take s = buffer.take s ∧
      (transformPart buffer s e f).drop e = buffer.drop e) :=
  ⟨fun buffer r s e hse heb hr => replacePart_frame buffer r s e hse heb hr,
   fun buffer s e f hse heb hf =>
    replacePart_frame buffer (f ((buffer.drop s).take (e - s))) s e hse heb hf⟩

/-- Closed witness for the frame theorem at a concrete splice. -/
theorem c10_witness :
    (0 : Nat) ≤ 2 ∧ (2 : Nat) ≤ 4 ∧ (4 : Nat) ≤ 6 ∧
    ([false, false].length = 4 - 2) ∧
    (replacePart [true, true, true, true, true, true] 2 4 [false, false]).take 2 =
      [true, true, true, true, true, true].take 2 ∧
    (replacePart [true, true, true, true, true, true] 2 4 [false, false]).drop 4 =
      [true, true, true, true, true, true].drop 4 := by
  have h := (c10_replace_transform_frame).1 [true, true, true, true, true, true]
    [false, false] 2 4 (by decide) (by decide) (by decide)
  exact ⟨by decide, by decide, by decide, by decide, h.2.1, h.2.2⟩

/-! ### Helper lemmas: lower-case hex width and digit class -/

theorem natToHexL_len_le : ∀ k, ∀ n, n < 16 ^ (k + 1) → (natToHexL n).length ≤ k + 1 := by
  intro k
  induction k with
  | zero =>
    intro n hn
    rw [natToHexL]
    have h16 : n < 16 := by simpa using hn
    simp [h16]
  | succ k ih =>
    intro n hn
    rw [natToHexL]
    by_cases h : n < 16
    · simp [h]
    · simp only [h, dite_false, List.length_append, List.length_singleton]
      have : n / 16 < 16 ^ (k + 1) := by
        rw [Nat.div_lt_iff_lt_mul (by omega)]
        calc n < 16 ^ (k + 2) := hn
        _ = 16 ^ (k + 1) * 16 := by ring
      exact Nat.add_le_add_right (ih _ this) 1

theorem sprintf08x_length (n : Nat) (h : n < 2 ^ 32) : (sprintf08x n).length = 8 := by
  have h8 : (natToHexL n).length ≤ 8 := natToHexL_len_le 7 n (by norm_num; omega)
  simp [sprintf08x]
  omega

theorem hexDigitChar_hexChar : ∀ m < 16, hexDigitChar (hexChar m) = true := by decide

theorem natToHexL_all_hex : ∀ n, (natToHexL n).all hexDigitChar = true := by
  intro n
  induction n using Nat.strong_induction_on with
  | _ n ih =>
    rw [natToHexL]
    by_cases h : n < 16
    · simp only [h, dite_true, List.all_cons, List.all_nil, Bool.and_true]
      exact hexDigitChar_hexChar n h
    · simp only [h, dite_false, List.all_append, List.all_cons, List.all_nil,
        Bool.and_true]
      rw [Bool.and_eq_true]
      exact ⟨ih _ (Nat.div_lt_self (by omega) (by omega)),
        hexDigitChar_hexChar _ (Nat.mod_lt _ (by omega))⟩

theorem sprintf08x_all_hex (n : Nat) : (sprintf08x n).all hexDigitChar = true := by
  rw [sprintf08x, List.all_append, Bool.and_eq_true]
  refine ⟨?_, natToHexL_all_hex n⟩
  refine List.all_eq_true.mpr ?_
  intro c hc
  rw [List.eq_of_mem_replicate hc]
  decide

theorem hexVal_sprintf08x (n : Nat) : hexVal (sprintf08x n) = n := by
  rw [sprintf08x, hexVal_replicate_zero_append, hexVal_natToHexL]

/-! ### Helper lemmas: the handle regex matcher -/

theorem matchHandleTail_exact (id8 ty8 : List Char) (hid : id8.length = 8)
    (hty : ty8.length = 8) (hidh : id8.all hexDigitChar = true)
    (htyh : ty8.all hexDigitChar = true) :
    matchHandleTail ("00".data ++ (id8 ++ ("00".data ++ ty8))) =
      some (id8, some ty8) := by
  have hdrop2 : ("00".data ++ (id8 ++ ("00".data ++ ty8))).drop 2 =
      id8 ++ ("00".data ++ ty8) := drop_exact "00".data _ 2 rfl
  have hdrop10 : ("00".data ++ (id8 ++ ("00".data ++ ty8))).drop 10 =
      "00".data ++ ty8 := by
    have h1 := drop_add_exact "00".data (id8 ++ ("00".data ++ ty8)) 2 8 rfl
    rw [drop_exact id8 ("00".data ++ ty8) 8 hid] at h1
    exact h1
  have htake2 : ("00".data ++ (id8 ++ ("00".data ++ ty8))).take 2 = ['0', '0'] :=
    take_exact "00".data _ 2 rfl
  have hg2 : (id8 ++ ("00".data ++ ty8)).take 8 = id8 := take_exact id8 _ 8 hid
  have hrtake : ("00".data ++ ty8).take 2 = ['0', '0'] := take_exact "00".data ty8 2 rfl
  have hrdrop : ("00".data ++ ty8).drop 2 = ty8 := drop_exact "00".data ty8 2 rfl
  have hg3 : ty8.take 8 = ty8 := by rw [← hty, List.take_length]
  have hrlen : ("00".data ++ ty8).length = 10 := by simp [hty]
  simp only [matchHandleTail]
  rw [hdrop2, hg2, hdrop10, hrtake, hrdrop, hg3, hrlen]
  rw [if_pos ⟨htake2, hid, hidh⟩, if_pos ⟨rfl, hty, htyh, rfl⟩]

theorem matchHandleTail_none_of_length (s : List Char)
    (h10 : s.length ≠ 10) (h20 : s.length ≠ 20) : matchHandleTail s = none := by
  simp only [matchHandleTail]
  by_cases h1 : s.take 2 = ['0', '0'] ∧ ((s.drop 2).take 8).length = 8 ∧
      ((s.drop 2).take 8).all hexDigitChar = true
  · rw [if_pos h1]
    have hs10 : 10 ≤ s.length := by
      have h := h1.2.1
      rw [List.length_take, List.length_drop] at h
      omega
    rw [if_neg, if_neg]
    · intro hr
      have : (s.drop 10).length = 0 := by rw [hr]; rfl
      rw [List.length_drop] at this
      omega
    · rintro ⟨-, -, -, hr⟩
      rw [List.length_drop] at hr
      omega
  · rw [if_neg h1]

/-- Backtracking lemma: starting anywhere in `1 .. |apiKey|`, the lazy
group-1 search lands exactly on `apiKey` (shorter prefixes leave a tail
longer than 20 characters, which the anchored tail regex cannot match). -/
theorem parseHandleFrom_spec (apiKey id8 ty8 : List Char)
    (hak : apiKey.all handleChar = true) (hid : id8.length = 8)
    (hty : ty8.length = 8) (hidh : id8.all hexDigitChar = true)
    (htyh : ty8.all hexDigitChar = true) :
    ∀ d len, 1 ≤ len → len + d = apiKey.length →
      parseHandleFrom (apiKey ++ ("00".data ++ (id8 ++ ("00".data ++ ty8)))) len =
        some ⟨apiKey, id8, some ty8⟩ := by
  have hT : ("00".data ++ (id8 ++ ("00".data ++ ty8))).length = 20 := by
    simp [hid, hty]
  intro d
  induction d with
  | zero =>
    intro len h1 hlen
    rw [parseHandleFrom, dif_neg (by rw [List.length_append, hT]; omega)]
    simp only []
    have hg1 : (apiKey ++ ("00".data ++ (id8 ++ ("00".data ++ ty8)))).take len =
        apiKey := take_exact apiKey _ len (by omega)
    have hdrop : (apiKey ++ ("00".data ++ (id8 ++ ("00".data ++ ty8)))).drop len =
        "00".data ++ (id8 ++ ("00".data ++ ty8)) := drop_exact apiKey _ len (by omega)
    have hsc : (if 1 ≤ len ∧
        ((apiKey ++ ("00".data ++ (id8 ++ ("00".data ++ ty8)))).take len).all
          handleChar = true then
        matchHandleTail ((apiKey ++ ("00".data ++ (id8 ++ ("00".data ++ ty8)))).drop len)
      else none) = some (id8, some ty8) := by
      rw [if_pos ⟨h1, by rw [hg1]; exact hak⟩, hdrop,
        matchHandleTail_exact id8 ty8 hid hty hidh htyh]
    rw [hsc, hg1]
  | succ d ih =>
    intro len h1 hlen
    rw [parseHandleFrom, dif_neg (by rw [List.length_append, hT]; omega)]
    simp only []
    have hmt : matchHandleTail
        ((apiKey ++ ("00".data ++ (id8 ++ ("00".data ++ ty8)))).drop len) = none := by
      refine matchHandleTail_none_of_length _ ?_ ?_ <;>
        · rw [List.length_drop, List.length_append, hT]
          omega
    have hsc : (if 1 ≤ len ∧
        ((apiKey ++ ("00".data ++ (id8 ++ ("00".data ++ ty8)))).take len).all
          handleChar = true then
        matchHandleTail ((apiKey ++ ("00".data ++ (id8 ++ ("00".data ++ ty8)))).drop len)
      else none) = none := by
      split
      · exact hmt
      · rfl
    rw [hsc]
    exact ih (len + 1) (by omega) (by omega)

/-- C9: `parseHandle ∘ getUoHandle` is the identity on the components: for
every nonempty `apiKey` over `[a-zA-Z0-9_-]` and 32-bit `uoId`, `uoType`,
parsing the formatted handle recovers `apiKey` and the 8-digit hex fields,
whose numeric values are the original `uoId` and `uoType`; and a handle
formed without a `uoType` equals the handle with `uoType = 0`. -/
theorem c9_handle_roundtrip (apiKey : List Char) (uoId uoType : Nat)
    (hne : apiKey ≠ []) (hak : ∀ c ∈ apiKey, handleChar c = true)
    (hid : uoId < 2 ^ 32) (hty : uoType < 2 ^ 32) :
    parseHandle (getUoHandle apiKey (some uoId) (some uoType)) =
      .ok ⟨apiKey, sprintf08x uoId, some (sprintf08x uoType)⟩ ∧
    hexVal (sprintf08x uoId) = uoId ∧ hexVal (sprintf08x uoType) = uoType ∧
    getUoHandle apiKey (some uoId) none = getUoHandle apiKey (some uoId) (some 0) := by
  refine ⟨?_, hexVal_sprintf08x uoId, hexVal_sprintf08x uoType, rfl⟩
  have hhandle : getUoHandle apiKey (some uoId) (some uoType) =
      apiKey ++ ("00".data ++ (sprintf08x uoId ++ ("00".data ++ sprintf08x uoType))) := by
    simp [getUoHandle, List.append_assoc]
  rw [hhandle]
  simp only [parseHandle]
  rw [parseHandleFrom_spec apiKey (sprintf08x uoId) (sprintf08x uoType)
    (List.all_eq_true.mpr hak) (sprintf08x_length uoId hid)
    (sprintf08x_length uoType hty) (sprintf08x_all_hex uoId)
    (sprintf08x_all_hex uoType) (apiKey.length - 1) 1 (by omega)
    (by have := List.length_pos.mpr hne; omega)]

/-! ### Helper lemmas: template filler -/

/-- A key set in which every supplied key mismatches its slot's recorded
length makes the splicing loop a no-op (every slot is skipped). -/
theorem spliceKeys_skip_all (ba : List Bool) (keys : List (String × List Bool)) :
    ∀ offs : List KeyOffset,
      (∀ off ∈ offs, ∀ kb, keys.lookup off.ktype = some kb → kb.length ≠ off.klen) →
      spliceKeys ba offs keys = (ba, false) := by
  intro offs
  induction offs with
  | nil => intro h; rfl
  | cons o t ih =>
    intro h
    have htail := ih (fun off hoff kb hl => h off (List.mem_cons_of_mem o hoff) kb hl)
    by_cases he : o.ktype = ""
    · simp only [spliceKeys, List.foldl_cons, if_pos he]
      exact htail
    · rcases hl : keys.lookup o.ktype with _ | kb
      · simp only [spliceKeys, List.foldl_cons, if_neg he, hl]
        exact htail
      · have hne := h o (List.mem_cons_self o t) kb hl
        simp only [spliceKeys, List.foldl_cons, if_neg he, hl]
        rw [if_pos hne]
        exact htail

theorem flagTransform_length (b : Bool) (x : List Bool) :
    (flagTransform b x).length = 8 := by
  simp [flagTransform, bitsOfByte]

theorem transformPart_length (buffer : List Bool) (s e : Nat)
    (f : List Bool → List Bool) (hse : s ≤ e) (heb : e ≤ buffer.length)
    (hf : (f ((buffer.drop s).take (e - s))).length = e - s) :
    (transformPart buffer s e f).length = buffer.length :=
  (replacePart_frame buffer (f ((buffer.drop s).take (e - s))) s e hse heb hf).1

theorem cbcEncryptNoPad_ok (E : List Nat → List Nat) (p : List Nat)
    (hp : p.length % 16 = 0) :
    cbcEncryptNoPad E (List.replicate 16 0) p =
      .ok (cbcEncChain E (List.replicate 16 0) (chunks16 p)).flatten := by
  rw [cbcEncryptNoPad, if_neg (by simp), if_neg (by omega)]

/-- C8 (amended): `templateFiller.build` does not reject a supplied key
whose bit length differs from its slot's recorded length — the slot is
skipped (`continue`) and the build proceeds exactly as if no keys were
supplied at all; in particular, under the well-formedness side conditions
of the build (byte-aligned template and encryption offset, the flag byte
inside the template, 256-bit transport keys, an import key present with a
parseable TLV public key) it still returns a filled template. -/
theorem c8_template_filler_mismatch_not_rejected
    (E_tek M_tmk : List Nat → List Nat) (randPS : Nat → Nat)
    (tek tmk : List Nat) (template : UOTemplate)
    (keys : List (String × List Bool))
    (hmis : ∀ off ∈ template.keyoffsets, ∀ kb,
      keys.lookup off.ktype = some kb → kb.length ≠ off.klen) :
    templateFillerBuild E_tek M_tmk randPS tek tmk template keys =
      templateFillerBuild E_tek M_tmk randPS tek tmk template [] ∧
    (template.templateBits.length % 8 = 0 → template.encryptionoffset % 8 = 0 →
      template.flagoffset + 16 ≤ template.templateBits.length →
      tek.length = 32 → tmk.length = 32 →
      ∀ iKey ∈ getBestImportKey template.importkeys, ∀ nb eb2,
        readSerializedPubKey iKey.ikey = .ok (nb, eb2) →
        ∃ ft, templateFillerBuild E_tek M_tmk randPS tek tmk template keys =
          .ok ft) := by
  have h1 := spliceKeys_skip_all template.templateBits keys template.keyoffsets hmis
  have h2 := spliceKeys_skip_all template.templateBits [] template.keyoffsets
    (fun off _ kb hl => by simp [List.lookup] at hl)
  constructor
  · simp only [templateFillerBuild, h1, h2]
  · intro ha he hfo htek32 htmk32 iKey hik nb eb2 hread
    rw [Option.mem_def] at hik
    have hbal : (transformPart template.templateBits (template.flagoffset + 8)
        (template.flagoffset + 16) (flagTransform false)).length =
        template.templateBits.length :=
      transformPart_length _ _ _ _ (by omega) hfo
        (by rw [flagTransform_length]; omega)
    have hrsa : ∃ w, rsaEncrypt randPS
        (be4 (template.objectid % 2 ^ 32) ++ tek ++ tmk) iKey = .ok w := by
      rw [rsaEncrypt]
      rw [pkcs15Pad_ok randPS _ _ 2
        (by
          intro hnil
          have hl := congrArg List.length hnil
          simp only [List.length_append, be4_length, htek32, htmk32,
            List.length_nil] at hl
          omega)
        (Or.inr (Or.inr rfl))
        (by
          simp only [List.length_append, be4_length, htek32, htmk32]
          split <;> norm_num),
        hread]
      exact ⟨_, rfl⟩
    rcases hrsa with ⟨w, hw⟩
    simp only [templateFillerBuild, h1]
    rw [if_neg (by omega), if_neg (by rw [hbal]; omega)]
    simp only [cbcEncryptNoPad_ok E_tek _ (pkcs7Pad_length_mod _), hik, hw]
    exact ⟨_, rfl⟩

/-- C8 counterexample: a template whose only key slot records 16 bits,
supplied with a 32-bit key, is not rejected — `build` returns a filled
template (`Except.ok`). -/
theorem c8_counterexample_mismatched_key_accepted :
    (templateFillerBuild id (fun _ => List.replicate 16 0) (fun _ => 0xAB)
      (List.replicate 32 1) (List.replicate 32 2)
      ⟨List.replicate 32 false, 32, 0, [⟨"commk", 0, 16⟩],
        [⟨"rsa1024", [0x81, 0, 1, 3, 0x82, 0, 1, 5]⟩], 0xEE01⟩
      [("commk", bitsOfBytes [1, 2, 3, 4])]).isOk = true := by
  have h1 : spliceKeys (List.replicate 32 false) [⟨"commk", 0, 16⟩]
      [("commk", bitsOfBytes [1, 2, 3, 4])] = (List.replicate 32 false, false) := by
    refine spliceKeys_skip_all _ _ _ ?_
    intro off hoff kb hl
    have hoffeq : off = (⟨"commk", 0, 16⟩ : KeyOffset) := List.mem_singleton.mp hoff
    subst hoffeq
    have hl2 : some (bitsOfBytes [1, 2, 3, 4]) = some kb := hl
    injection hl2 with h
    subst h
    decide
  have hbal : (transformPart (List.replicate 32 false) (0 + 8) (0 + 16)
      (flagTransform false)).length = 32 := by
    rw [transformPart_length (List.replicate 32 false) (0 + 8) (0 + 16)
      (flagTransform false) (by decide) (by decide) (by decide)]
    decide
  have hread : readSerializedPubKey [0x81, 0, 1, 3, 0x82, 0, 1, 5] =
      .ok ([5], [3]) := by
    simp [readSerializedPubKey, readPubKeyLoop]
  have hrsa : ∃ w, rsaEncrypt (fun _ => 0xAB)
      (be4 (0xEE01 % 2 ^ 32) ++ List.replicate 32 1 ++ List.replicate 32 2)
      ⟨"rsa1024", [0x81, 0, 1, 3, 0x82, 0, 1, 5]⟩ = .ok w := by
    rw [rsaEncrypt, pkcs15Pad_ok (fun _ => 0xAB) _ _ 2 (by decide)
      (Or.inr (Or.inr rfl)) (by decide), hread]
    exact ⟨_, rfl⟩
  rcases hrsa with ⟨w, hw⟩
  have hik : getBestImportKey [⟨"rsa1024", [0x81, 0, 1, 3, 0x82, 0, 1, 5]⟩] =
      some ⟨"rsa1024", [0x81, 0, 1, 3, 0x82, 0, 1, 5]⟩ := rfl
  simp only [templateFillerBuild, h1]
  rw [if_neg (by decide), if_neg (by rw [hbal]; decide)]
  simp only [cbcEncryptNoPad_ok id _ (pkcs7Pad_length_mod _), hik, hw]
  rfl

/-! ### Concrete cipher instances and witnesses -/

theorem mapMod_id (b : List Nat) (hb : ∀ x ∈ b, x < 256) :
    b.map (fun x => x % 256) = b := by
  induction b with
  | nil => rfl
  | cons a t ih =>
    rw [List.map_cons, Nat.mod_eq_of_lt (hb a (by simp)),
      ih (fun x hx => hb x (by simp [hx]))]

theorem mapMod_len (b : List Nat) (hb : b.length = 16) :
    (b.map (fun x => x % 256)).length = 16 := by simpa using hb

theorem mapMod_mem (b : List Nat) : ∀ x ∈ b.map (fun x => x % 256), x < 256 := by
  intro x hx
  rcases List.mem_map.mp hx with ⟨y, _, rfl⟩
  exact Nat.mod_lt _ (by omega)

theorem mapMod_inv (b : List Nat) (hb : ∀ x ∈ b, x < 256) :
    (b.map (fun x => x % 256)).map (fun x => x % 256) = b := by
  rw [mapMod_id b hb, mapMod_id b hb]

theorem cbcMac_nil (M : List Nat → List Nat) :
    cbcMac M [] = List.replicate 16 0 := by
  rw [cbcMac, chunks16]
  simp [cbcMacChain]

/-- Closed witness for the round-trip theorem: the reduction-mod-256 block
cipher, the constant MAC cipher, and small concrete request data. -/
theorem c1_witness :
    ∃ wire r,
      processDataBuild (fun b => b.map (fun x => x % 256)) (fun _ => List.replicate 16 0)
        1 [1, 2, 3, 4, 5, 6, 7, 8] "PLAINAES".data [7] [9, 9, 9] = .ok wire ∧
      processDataParse (fun b => b.map (fun x => x % 256)) (fun _ => List.replicate 16 0)
        (loopbackWire (fun b => b.map (fun x => x % 256)) (fun b => b.map (fun x => x % 256))
          (fun _ => List.replicate 16 0) ("PLAINAES".data).length wire) = .ok r ∧
      r.protectedData = [9, 9, 9] ∧ r.nonce = [1, 2, 3, 4, 5, 6, 7, 8] := by
  obtain ⟨r, h1, h2, h3⟩ := c1_processdata_roundtrip
    (fun b => b.map (fun x => x % 256)) (fun b => b.map (fun x => x % 256))
    (fun _ => List.replicate 16 0)
    (fun b hb => mapMod_len b hb)
    (fun b _ => mapMod_mem b)
    (fun b _ hbb => mapMod_inv b hbb)
    (fun _ _ => rfl)
    (fun _ _ => replicate_zero_mem)
    1 (by decide)
    [1, 2, 3, 4, 5, 6, 7, 8] rfl (by decide)
    "PLAINAES".data [7] (by decide) (by decide) [9, 9, 9] (by decide)
    _ (processDataBuild_eq _ _ _ _ _ _ _)
  exact ⟨_, r, processDataBuild_eq _ _ _ _ _ _ _, h1, h2, h3⟩

/-- Closed witness for the build-format theorem at concrete request data. -/
theorem c2_witness :
    (1 : Nat) < 2 ^ 32 ∧ ([1, 2, 3, 4, 5, 6, 7, 8] : List Nat).length = 8 ∧
    ([2] : List Nat).length ≤ 0xffff ∧
    (processDataBuild id id 1 [1, 2, 3, 4, 5, 6, 7, 8] "T".data [2] [3] =
      .ok ("Packet0_".data ++ "T".data ++ "_".data ++ sprintf04X ([2] : List Nat).length
        ++ hexOfBytes [2]
        ++ hexOfBytes ((cbcEncChain id (List.replicate 16 0)
            (chunks16 (pkcs7Pad (0x1f :: (be4 1 ++ [1, 2, 3, 4, 5, 6, 7, 8] ++ [3]))))).flatten)
        ++ hexOfBytes (cbcMac id ((cbcEncChain id (List.replicate 16 0)
            (chunks16 (pkcs7Pad (0x1f :: (be4 1 ++ [1, 2, 3, 4, 5, 6, 7, 8] ++ [3]))))).flatten)))
      ∧ (sprintf04X ([2] : List Nat).length).length = 4
      ∧ hexVal (sprintf04X ([2] : List Nat).length) = ([2] : List Nat).length) :=
  ⟨by decide, rfl, by decide,
    c2_processdata_build_format id id 1 (by decide) [1, 2, 3, 4, 5, 6, 7, 8] rfl
      "T".data [2] [3] (by decide)⟩

/-- Closed witness for the MAC-before-decrypt theorem: a mismatching TAG
produces the corrupt error, and a successful parse has matching MACs. -/
theorem c3_witness :
    (processDataParse id (fun _ => List.replicate 16 0) ⟨"9000".data, "f".data,
        hexOfBytes (be2 ([1] : List Nat).length ++ ([1] ++ ([] ++ List.replicate 16 1)))
          ++ '_' :: "OK".data⟩ =
      .error (.corrupt "Padding is not valid")) ∧
    ∃ r, processDataParse (fun b => b.map (fun x => x % 256)) (fun _ => List.replicate 16 0)
        ⟨"9000".data, "ProcessData".data,
          hexOfBytes (be2 ([] : List Nat).length ++ ([]
            ++ (mirrorCipherText (fun b => b.map (fun x => x % 256)) 1 1 2 3 4 5 6 7 8 []
              ++ cbcMac (fun _ => List.replicate 16 0)
                (mirrorCipherText (fun b => b.map (fun x => x % 256)) 1 1 2 3 4 5 6 7 8 []))))
          ++ "_OK".data⟩ = .ok r ∧ r.mac = r.computedMac := by
  constructor
  · have hne : (List.replicate 16 1 : List Nat) ≠
        cbcMac (fun _ => List.replicate 16 0) [] := by
      rw [cbcMac_nil]
      decide
    exact (c3_mac_verified_before_decrypt.1 id id (fun _ => List.replicate 16 0)
      "f".data "OK".data [1] [] (List.replicate 16 1)
      (by decide) (by decide) (by decide) (by decide) rfl (by decide) (by decide) hne).1
  · obtain ⟨r, hok, _, _, _, _⟩ := parse_on_mirrored
      (fun b => b.map (fun x => x % 256)) (fun b => b.map (fun x => x % 256))
      (fun _ => List.replicate 16 0)
      (fun b hb => mapMod_len b hb) (fun b _ => mapMod_mem b)
      (fun b _ hbb => mapMod_inv b hbb)
      (fun _ _ => rfl) (fun _ _ => replicate_zero_mem)
      1 1 2 3 4 5 6 7 8 (by decide) [] (by decide) (by decide) [] (by decide)
    exact ⟨r, hok, c3_mac_verified_before_decrypt.2 _ _ _ r hok⟩

/-- Closed witness for the PKCS#7 theorem: unpadding a full padding block. -/
theorem c4_witness :
    (List.replicate 16 (16 : Nat)).length % 16 = 0 ∧
    (List.replicate 16 (16 : Nat)) ≠ [] ∧
    (∀ b ∈ List.replicate 16 (16 : Nat), b < 256) ∧
    pkcs7Unpad (List.replicate 16 16) = .ok [] := by
  have h := c4_pkcs7_pad_unpad.2.2.1 (List.replicate 16 16) (by decide) (by decide)
    (by decide)
  rw [if_pos (by decide)] at h
  exact ⟨by decide, by decide, by decide, h.trans rfl⟩

/-- Closed witness for the oversized-plainData theorem at a 65536-byte
plain data. -/
theorem c6_witness :
    0xffff < (List.replicate 65536 (0 : Nat)).length ∧
    (processDataBuild id (fun _ => List.replicate 16 0) 0 (List.replicate 8 0) "T".data
        (List.replicate 65536 0) [] =
      .ok ("Packet0_".data ++ "T".data ++ "_".data
        ++ sprintf04X (List.replicate 65536 (0 : Nat)).length
        ++ hexOfBytes (List.replicate 65536 0)
        ++ hexOfBytes (pdCipherText id 0 (List.replicate 8 0) [])
        ++ hexOfBytes (cbcMac (fun _ => List.replicate 16 0)
            (pdCipherText id 0 (List.replicate 8 0) [])))
      ∧ 4 < (sprintf04X (List.replicate 65536 (0 : Nat)).length).length) := by
  have hlen : (List.replicate 65536 (0 : Nat)).length = 65536 :=
    List.length_replicate _ _
  constructor
  · rw [hlen]
    norm_num
  · exact c6_build_oversized_plaindata id (fun _ => List.replicate 16 0) 0
      (List.replicate 8 0) "T".data (List.replicate 65536 0) []
      (by rw [hlen]; norm_num)

/-- Closed witness for the PKCS#1 v1.5 layout theorem at a one-byte input. -/
theorem c7_witness :
    ([1] : List Nat) ≠ [] ∧ ([1] : List Nat).length + 3 ≤ 16 ∧
    ∃ ps, pkcs15Pad (fun i => i + 1) [1] 16 2 = .ok (0 :: 2 :: ps ++ 0 :: [1]) ∧
      ps.length = 16 - 3 - ([1] : List Nat).length ∧
      (∀ i, ps.get? i = if i < ps.length then
        some (if (2 : Nat) = 1 then 0xff else if (2 : Nat) = 2 then (fun i => i + 1) i else 0)
        else none) :=
  ⟨by decide, by decide,
    (c7_pkcs15_layout (fun i => i + 1) [1] 16 2 (by decide) (Or.inr (Or.inr rfl))).1
      (by decide)⟩

/-- Closed witness for the template-filler theorem: a key set whose only
entry mismatches its slot behaves exactly like the empty key set. -/
theorem c8_witness :
    (∀ off ∈ [(⟨"commk", 0, 16⟩ : KeyOffset)], ∀ kb : List Bool,
      List.lookup off.ktype [("commk", bitsOfBytes [1, 2, 3, 4])] = some kb →
      kb.length ≠ off.klen) ∧
    templateFillerBuild id (fun _ => List.replicate 16 0) (fun _ => 0xAB)
      (List.replicate 32 1) (List.replicate 32 2)
      ⟨List.replicate 64 false, 32, 0, [⟨"commk", 0, 16⟩],
        [⟨"rsa1024", [0x81, 0, 1, 3, 0x82, 0, 1, 5]⟩], 0xEE01⟩
      [("commk", bitsOfBytes [1, 2, 3, 4])] =
    templateFillerBuild id (fun _ => List.replicate 16 0) (fun _ => 0xAB)
      (List.replicate 32 1) (List.replicate 32 2)
      ⟨List.replicate 64 false, 32, 0, [⟨"commk", 0, 16⟩],
        [⟨"rsa1024", [0x81, 0, 1, 3, 0x82, 0, 1, 5]⟩], 0xEE01⟩ [] := by
  have hmis : ∀ off ∈ [(⟨"commk", 0, 16⟩ : KeyOffset)], ∀ kb : List Bool,
      List.lookup off.ktype [("commk", bitsOfBytes [1, 2, 3, 4])] = some kb →
      kb.length ≠ off.klen := by
    intro off hoff kb hl
    have hoffeq : off = (⟨"commk", 0, 16⟩ : KeyOffset) := List.mem_singleton.mp hoff
    subst hoffeq
    have hl2 : some (bitsOfBytes [1, 2, 3, 4]) = some kb := hl
    injection hl2 with h
    subst h
    decide
  exact ⟨hmis, (c8_template_filler_mismatch_not_rejected id (fun _ => List.replicate 16 0)
    (fun _ => 0xAB) (List.replicate 32 1) (List.replicate 32 2) _ _ hmis).1⟩

/-- Closed witness for the handle round-trip theorem at a one-character
API key. -/
theorem c9_witness :
    (['a'] : List Char) ≠ [] ∧ (∀ c ∈ (['a'] : List Char), handleChar c = true) ∧
    (1 : Nat) < 2 ^ 32 ∧ (2 : Nat) < 2 ^ 32 ∧
    (parseHandle (getUoHandle ['a'] (some 1) (some 2)) =
        .ok ⟨['a'], sprintf08x 1, some (sprintf08x 2)⟩ ∧
      hexVal (sprintf08x 1) = 1 ∧ hexVal (sprintf08x 2) = 2 ∧
      getUoHandle ['a'] (some 1) none = getUoHandle ['a'] (some 1) (some 0)) :=
  ⟨by decide, by decide, by decide, by decide,
    c9_handle_roundtrip ['a'] 1 2 (by decide) (by decide) (by decide) (by decide)⟩
